import Mathlib

/-!
link2code: parsing file references and deriving GitHub links.

A shallow embedding of `link2code/link2code.go`.

* A Go `string` holding UTF-8 text is a `List Char` (`GoString`); strings that
  are not valid UTF-8 are outside the model.  Offsets into a string count
  characters.
* Go's `int` is the 64-bit signed integer; values are `Int`, and the range is
  checked where the program checks it (`strconv.Atoi`).
* The functions of the Go standard library that the program calls are modelled
  after their documentation, under the names of their packages.
* A Go function that can panic returns `Except Fault _`, or an `Outcome` when it
  can also return an `error`.
* The process-wide caches of `Git` are passed explicitly, and every external
  `git` invocation is recorded in a trace; the answers of `git` are a parameter
  (`Env`).
-/

namespace Link2Code

/-- A Go string holding UTF-8 text. -/
abbrev GoString := List Char

/-- Run-time faults (Go panics) the program can raise. -/
inductive Fault where
  /-- Raised by `panic(err)` with the error of `strconv.Atoi` on the given text. -/
  | atoi (s : GoString)
  /-- Raised by an index expression past the end of a slice. -/
  | indexOutOfRange (index len : Nat)
  deriving DecidableEq, Repr

deriving instance DecidableEq for Except

/-! ## Package `strings` -/

namespace strings

/-- Go `unicode.IsSpace`: the Unicode White_Space property. -/
def isSpace (c : Char) : Bool :=
  let n := c.toNat
  (9 ≤ n && n ≤ 13) || n == 0x20 || n == 0x85 || n == 0xA0 || n == 0x1680 ||
  (0x2000 ≤ n && n ≤ 0x200A) || n == 0x2028 || n == 0x2029 || n == 0x202F ||
  n == 0x205F || n == 0x3000

/-- Go `strings.HasPrefix`. -/
def HasPrefix (s pre : GoString) : Bool := pre.isPrefixOf s

/-- Go `strings.HasSuffix`. -/
def HasSuffix (s suf : GoString) : Bool := suf.isSuffixOf s

/-- Go `strings.Cut`: the text before and after the first instance of `sep`,
or `none` when `sep` does not occur. -/
def Cut (sep : GoString) : GoString → Option (GoString × GoString)
  | [] => if sep.isEmpty then some ([], []) else none
  | c :: t =>
    if sep.isPrefixOf (c :: t) then some ([], (c :: t).drop sep.length)
    else (Cut sep t).map (fun ab => (c :: ab.1, ab.2))

/-- Go `strings.Contains`. -/
def Contains (s substr : GoString) : Bool := (Cut substr s).isSome

/-- Splitting at each instance of a non-empty separator, at most `n` cuts. -/
def splitLoop (sep : GoString) : Nat → GoString → List GoString
  | 0, s => [s]
  | n + 1, s =>
    match Cut sep s with
    | none => [s]
    | some (a, b) => a :: splitLoop sep n b

/-- Go `strings.Split`: the substrings between instances of `sep`.  With an
empty separator the text is exploded into its characters. -/
def Split (s sep : GoString) : List GoString :=
  if sep.isEmpty then s.map (fun c => [c]) else splitLoop sep s.length s

/-- Go `strings.SplitN`, with the same conventions as `Split`: at most `n`
substrings, the last one being the unsplit remainder; `n < 0` means no limit
and `n = 0` gives the empty slice. -/
def SplitN (s sep : GoString) (n : Int) : List GoString :=
  if n = 0 then []
  else if n < 0 then Split s sep
  else if sep.isEmpty then
    if s.length ≤ n.toNat then s.map (fun c => [c])
    else (s.take (n.toNat - 1)).map (fun c => [c]) ++ [s.drop (n.toNat - 1)]
  else splitLoop sep (n.toNat - 1) s

/-- Go `strings.Count`: the number of non-overlapping instances of `substr`;
one more than the number of characters when `substr` is empty. -/
def Count (s substr : GoString) : Nat :=
  if substr.isEmpty then s.length + 1 else (splitLoop substr s.length s).length - 1

/-- Go `strings.TrimLeft`: drop the leading characters contained in `cutset`. -/
def TrimLeft (s cutset : GoString) : GoString := s.dropWhile (fun c => cutset.contains c)

/-- Go `strings.TrimSpace`: drop leading and trailing white space. -/
def TrimSpace (s : GoString) : GoString := (s.dropWhile isSpace).rdropWhile isSpace

/-- Go `strings.TrimSuffix`: drop one trailing `suf`, if present. -/
def TrimSuffix (s suf : GoString) : GoString :=
  if HasSuffix s suf then s.take (s.length - suf.length) else s

/-- Go `strings.Fields`: the maximal runs of characters that are not white space. -/
def Fields (s : GoString) : List GoString :=
  (s.splitOnP isSpace).filter (fun f => !f.isEmpty)

/-- Go `strings.Replace(s, old, new, 1)`: replace the first instance of `old`. -/
def ReplaceFirst (s old new : GoString) : GoString :=
  match Cut old s with
  | none => s
  | some (a, b) => a ++ new ++ b

end strings

/-! ## Package `strconv` -/

namespace strconv

/-- Value of a run of decimal digits, or `none` if a character is not one of `0`..`9`. -/
def parseDigits : GoString → Nat → Option Nat
  | [], acc => some acc
  | c :: t, acc => if c.isDigit then parseDigits t (acc * 10 + (c.toNat - 48)) else none

/-- Go `strconv.Atoi` for 64-bit `int`: an optional sign followed by one or more
decimal digits, whose value lies in `[-2^63, 2^63 - 1]`; `none` stands for the
`*NumError` (syntax or range) that the callers turn into a panic. -/
def Atoi (s : GoString) : Option Int :=
  match s with
  | [] => none
  | c :: t =>
    let neg := c == '-'
    let body := if c == '-' || c == '+' then t else c :: t
    if body.isEmpty then none
    else
      match parseDigits body 0 with
      | none => none
      | some n =>
        if neg then (if n ≤ 2 ^ 63 then some (-(n : Int)) else none)
        else (if n < 2 ^ 63 then some (n : Int) else none)

end strconv

/-! ## Package `regexp`: a backtracking matcher with leftmost-first semantics -/

/-- The fragment of regular-expression syntax used by the program. -/
inductive Regex where
  /-- A literal character. -/
  | lit (c : Char)
  /-- A character class given by inclusive ranges, as in `[0-9\-]`. -/
  | cls (ranges : List (Char × Char))
  /-- Concatenation. -/
  | seq (a b : Regex)
  /-- Greedy `a?`. -/
  | opt (a : Regex)
  /-- Greedy `a+`. -/
  | plus (a : Regex)
  /-- End of text, `$` without the multi-line flag. -/
  | eot

namespace Regex

/-- Membership of a character in a class. -/
def inClass (ranges : List (Char × Char)) (c : Char) : Bool :=
  ranges.any (fun r => r.1.toNat ≤ c.toNat && c.toNat ≤ r.2.toNat)

/-- Greedy `a{1,2}`: one `a`, then another one if possible. -/
def rep12 (a : Regex) : Regex := seq a (opt a)

/-- Iteration of a matcher `m` for greedy `+`: after each round another
round is preferred to leaving the loop.  A round that consumed nothing leaves
the loop.  The first argument bounds the number of rounds. -/
def plusLoop (m : GoString → (GoString → Option GoString) → Option GoString) :
    Nat → GoString → (GoString → Option GoString) → Option GoString
  | 0, _, _ => none
  | n + 1, s, k =>
    m s (fun s1 =>
      if s1.length < s.length then (plusLoop m n s1 k).orElse (fun _ => k s1) else k s1)

/-- Backtracking matcher in continuation-passing style: `run r s k` tries the
ways `r` can match a prefix of `s` in priority order and gives the first
result the continuation `k` accepts on the remaining text.  The text `s` is a
suffix of the whole input, so `[]` is the end of the text. -/
def run : Regex → GoString → (GoString → Option GoString) → Option GoString
  | lit c, s, k =>
    match s with
    | d :: t => if d == c then k t else none
    | [] => none
  | cls rs, s, k =>
    match s with
    | d :: t => if inClass rs d then k t else none
    | [] => none
  | seq a b, s, k => run a s (fun s1 => run b s1 k)
  | opt a, s, k => (run a s k).orElse (fun _ => k s)
  | plus a, s, k => plusLoop (fun s1 k1 => run a s1 k1) (s.length + 1) s k
  | eot, s, k => if s.isEmpty then k s else none

/-- Length of the preferred match of `r` at the start of `s`. -/
def matchLen (r : Regex) (s : GoString) : Option Nat :=
  (run r s some).map (fun rest => s.length - rest.length)

/-- Leftmost match of `r` in a text whose first character has offset `i`. -/
def findFrom (r : Regex) : Nat → GoString → Option (Nat × Nat)
  | i, [] => (matchLen r []).map (fun n => (i, i + n))
  | i, c :: t =>
    match matchLen r (c :: t) with
    | some n => some (i, i + n)
    | none => findFrom r (i + 1) t

/-- Go `(*Regexp).FindStringIndex`: the offsets `[lo, hi)` of the leftmost
match, the preferred one among those that start there; `none` when there is no
match. -/
def FindStringIndex (r : Regex) (text : GoString) : Option (Nat × Nat) :=
  findFrom r 0 text

end Regex

/-! ## The reference parser -/

/-- The class `[0-9\-]`. -/
def lineClass : List (Char × Char) := [('0', '9'), ('-', '-')]

/-- The group `(:[0-9\-]+)`. -/
def lineGroup : Regex := .seq (.lit ':') (.plus (.cls lineClass))

/-- Source: ``filenameRe = regexp.MustCompile(`(:[0-9\-]+){1,2}`)``. -/
def filenameRe : Regex := .rep12 lineGroup

/-- Source: ``fallbackFilenameRe = regexp.MustCompile(`(:[0-9\-]+)+$`)``. -/
def fallbackFilenameRe : Regex := .seq (.plus lineGroup) .eot

/-- Indexing a slice, with Go's bounds check. -/
def index {α : Type} (xs : List α) (i : Nat) : Except Fault α :=
  match xs[i]? with
  | some x => .ok x
  | none => .error (.indexOutOfRange i xs.length)

/-- The calls `strconv.Atoi(s)` followed by `if err != nil { panic(err) }`. -/
def atoiOrPanic (s : GoString) : Except Fault Int :=
  match strconv.Atoi s with
  | some n => .ok n
  | none => .error (.atoi s)

/-- Source: `splitFilename(text string, fallback bool) (string, int, int)`. -/
def splitFilename (text : GoString) (fallback : Bool) : Except Fault (GoString × Int × Int) :=
  let re := if fallback then fallbackFilenameRe else filenameRe
  match re.FindStringIndex text with
  | none => .ok (text, 0, 0)
  | some (lo, hi) =>
    let filename := text.take lo
    let suffix := (text.take hi).drop lo
    let suffix := strings.TrimLeft suffix [':']
    if strings.Count suffix [':'] = 1 then do
      let s ← index (strings.Split suffix [':']) 0
      let start ← atoiOrPanic s
      pure (filename, start, 0)
    else if strings.Count suffix ['-'] = 1 then do
      let split := strings.Split suffix ['-']
      let start ← (index split 0) >>= atoiOrPanic
      let end_ ← (index split 1) >>= atoiOrPanic
      pure (filename, start, end_)
    else do
      let start ← atoiOrPanic suffix
      pure (filename, start, 0)

/-! ## Packages `path`, `path/filepath` (slash-separated paths) and `net/url` -/

namespace path

/-- One element of a path in `Clean`, on the stack of the elements kept so far
(last one first): empty and `.` elements are dropped; `..` removes the element
before it, is dropped at the root and is kept at the start of a relative path. -/
def cleanStep (rooted : Bool) (stack : List GoString) (seg : GoString) : List GoString :=
  if seg = [] ∨ seg = ['.'] then stack
  else if seg = ['.', '.'] then
    match stack with
    | top :: rest => if top = ['.', '.'] then seg :: stack else rest
    | [] => if rooted then [] else [seg]
  else seg :: stack

/-- Go `path.Clean`: the shortest equivalent path, `.` for the empty one. -/
def Clean (p : GoString) : GoString :=
  let rooted : Bool := p.head? = some '/'
  let segs := ((p.splitOn '/').foldl (cleanStep rooted) []).reverse
  let out := (if rooted then ['/'] else []) ++ List.intercalate ['/'] segs
  if out = [] then ['.'] else out

/-- Go `path.Join`: the elements from the first non-empty one on, joined by
slashes and cleaned; the empty string if there is none. -/
def Join (elem : List GoString) : GoString :=
  let es := elem.dropWhile (fun e => e.isEmpty)
  if es = [] then [] else Clean (List.intercalate ['/'] es)

/-- Go `filepath.Dir`: all but the last element of the path, cleaned. -/
def Dir (p : GoString) : GoString :=
  Clean (p.rdropWhile (fun c => c != '/'))

/-- Go `filepath.Abs`, given the result of `os.Getwd`. -/
def Abs (getwd : Except GoString GoString) (p : GoString) : Except GoString GoString :=
  if p.head? = some '/' then .ok (Clean p)
  else
    match getwd with
    | .error e => .error e
    | .ok wd => .ok (Join [wd, p])

end path

/-- The fields of Go's `url.URL` that the program uses.  `Path` is the decoded
path.  The encoded form of a path is taken to be the path itself, which is
exact for paths without `%` whose characters need no escaping. -/
structure URL where
  Scheme : GoString
  Host : GoString
  Path : GoString
  Fragment : GoString
  deriving DecidableEq, Repr

namespace URL

/-- Go `ishex`. -/
def ishex (c : Char) : Bool :=
  c.isDigit || (97 ≤ c.toNat && c.toNat ≤ 102) || (65 ≤ c.toNat && c.toNat ≤ 70)

/-- Go `unhex`. -/
def unhex (c : Char) : Nat :=
  if c.isDigit then c.toNat - 48
  else if 97 ≤ c.toNat && c.toNat ≤ 102 then c.toNat - 97 + 10
  else c.toNat - 65 + 10

/-- Go `unescape(s, encodePath)`: every `%XX` becomes the byte `XX`; `none`
stands for the `EscapeError` of a `%` that is not followed by two hexadecimal
digits.  Exact when the bytes written as escapes are ASCII. -/
def unescape : GoString → Option GoString
  | [] => some []
  | c :: t =>
    if c = '%' then
      match t with
      | a :: b :: t2 =>
        if ishex a && ishex b then
          (unescape t2).map (fun r => Char.ofNat (16 * unhex a + unhex b) :: r)
        else none
      | _ => none
    else (unescape t).map (fun r => c :: r)

/-- Go `(*URL).JoinPath`: a copy whose path is the old path joined with the
elements and cleaned, keeping a trailing slash of the last element.  The
elements are read as encoded paths by `setPath`, whose error `JoinPath`
ignores: when the joined path has a malformed escape the old path stays. -/
def JoinPath (u : URL) (elem : List GoString) : URL :=
  let rooted := strings.HasPrefix u.Path ['/']
  let elems := (if rooted then u.Path else '/' :: u.Path) :: elem
  let p := if rooted then path.Join elems else (path.Join elems).drop 1
  let last := (elems.getLast?).getD []
  let p := if strings.HasSuffix last ['/'] ∧ strings.HasSuffix p ['/'] = false
    then p ++ ['/'] else p
  match unescape p with
  | none => u
  | some decoded => { u with Path := decoded }

/-- Go `(*URL).String` on the modelled fields (the URLs of the program have no
opaque part, user, or query), for a path and a fragment whose characters need
no escaping. -/
def String (u : URL) : GoString :=
  let buf : GoString := if u.Scheme = [] then [] else u.Scheme ++ [':']
  let buf : GoString :=
    if u.Scheme ≠ [] ∨ u.Host ≠ [] then
      (if u.Host ≠ [] ∨ u.Path ≠ [] then buf ++ ['/', '/'] else buf) ++ u.Host
    else buf
  let buf : GoString :=
    if u.Path ≠ [] ∧ u.Path.head? ≠ some '/' ∧ u.Host ≠ [] then buf ++ ['/'] else buf
  let buf : GoString :=
    if buf = [] ∧ strings.Contains ((u.Path.splitOn '/').headD []) [':'] = true
    then buf ++ ['.', '/'] else buf
  let buf : GoString := buf ++ u.Path
  if u.Fragment = [] then buf else buf ++ '#' :: u.Fragment

end URL

/-- The value of `url.Parse("https://github.com/")`. -/
def githubRoot : URL :=
  { Scheme := "https".toList, Host := "github.com".toList, Path := ['/'], Fragment := [] }

/-- Go `fmt.Sprintf("%d", i)`. -/
def fmtInt (i : Int) : GoString :=
  if i < 0 then '-' :: (Nat.repr i.natAbs).toList else (Nat.repr i.toNat).toList

/-! ## The git metadata resolver -/

/-- One invocation `git -C cwd args...`. -/
structure Query where
  cwd : GoString
  args : List GoString
  deriving DecidableEq, Repr

/-- The world outside the process: what `exec.Command("git", ...).Output()`
gives for a query (the standard output, or the error as `run` wraps it) and
what `os.Getwd` gives. -/
structure Env where
  exec : Query → Except GoString GoString
  getwd : Except GoString GoString

/-- A Go `map[string]_`. -/
abbrev Cache (α : Type) := GoString → Option α

/-- The assignment `cache[key] = v`. -/
def Cache.set {α : Type} (cache : Cache α) (key : GoString) (v : α) : Cache α :=
  fun k => if k = key then some v else cache k

/-- Source: `type git struct`. -/
structure git where
  worktreeCache : Cache GoString
  revCache : Cache GoString
  baseURLCache : Cache URL

/-- Source: `var Git = git{...}`, the caches at the start of the process. -/
def Git : git :=
  { worktreeCache := fun _ => none, revCache := fun _ => none, baseURLCache := fun _ => none }

/-- How a call ends: with a value, with a Go `error`, or with a panic. -/
inductive Outcome (α : Type) where
  | ok (v : α)
  | err (e : GoString)
  | panic (f : Fault)
  deriving DecidableEq, Repr

/-- The effect of a call on a `git` value: its outcome, the caches afterwards
and the external queries it issued, in order. -/
structure Step (α : Type) where
  out : Outcome α
  git : git
  trace : List Query

/-- The deferred function `if result != "" { cache[cwd] = result }`. -/
def deferStore (cache : Cache GoString) (cwd result : GoString) : Cache GoString :=
  if result ≠ [] then cache.set cwd result else cache

/-- The deferred function `if result != nil { cache[cwd] = result }`. -/
def deferStoreURL (cache : Cache URL) (cwd : GoString) (result : Option URL) : Cache URL :=
  match result with
  | some u => cache.set cwd u
  | none => cache

/-- The query of `worktree` for the git directory. -/
def gitDirQuery (cwd : GoString) : Query :=
  ⟨cwd, ["rev-parse".toList, "--absolute-git-dir".toList]⟩

/-- The query of `worktree` for an explicit work tree. -/
def coreWorktreeQuery (cwd : GoString) : Query :=
  ⟨cwd, ["config".toList, "--get".toList, "core.worktree".toList]⟩

/-- The query of `upstreamRevision` for the commits on no remote. -/
def localOnlyQuery (cwd : GoString) : Query :=
  ⟨cwd, ["log".toList, "HEAD".toList, "--oneline".toList, "--not".toList, "--remotes".toList]⟩

/-- The query of `upstreamRevision` that resolves the selector. -/
def revListQuery (cwd selector : GoString) : Query :=
  ⟨cwd, ["rev-list".toList, "--abbrev-commit".toList, "--abbrev=10".toList,
    "--max-count=1".toList, selector]⟩

/-- The query of `baseURL` for the remote origin. -/
def originQuery (cwd : GoString) : Query :=
  ⟨cwd, ["config".toList, "--get".toList, "remote.origin.url".toList]⟩

/-- Source: `func (g *git) worktree(cwd string) (string, error)`. -/
def git.worktree (env : Env) (g : git) (cwd : GoString) : Step GoString :=
  match g.worktreeCache cwd with
  | some dir => ⟨.ok dir, g, []⟩
  | none =>
    let done (out : Outcome GoString) (result : GoString) (trace : List Query) : Step GoString :=
      ⟨out, { g with worktreeCache := deferStore g.worktreeCache cwd result }, trace⟩
    match env.exec (gitDirQuery cwd) with
    | .error e => done (.err e) [] [gitDirQuery cwd]
    | .ok gitDir =>
      let gitDir := strings.TrimSpace gitDir
      let trace := [gitDirQuery cwd, coreWorktreeQuery cwd]
      match env.exec (coreWorktreeQuery cwd) with
      | .error _ => done (.ok (path.Dir gitDir)) (path.Dir gitDir) trace
      | .ok workTree =>
        let workTree := strings.TrimSpace workTree
        if workTree = [] then done (.ok (path.Dir gitDir)) (path.Dir gitDir) trace
        else
          match path.Abs env.getwd (path.Join [gitDir, workTree]) with
          | .error e => done (.err e) [] trace
          | .ok workTree => done (.ok workTree) workTree trace

/-- The selector computed by `upstreamRevision` from the output of the
local-only listing (source lines 304 to 312). -/
def selectorOf (localOnly : GoString) : Except Fault GoString :=
  let lines := strings.Split (strings.TrimSpace localOnly) ['\n']
  if lines.length > 0 then do
    let line ← index lines (lines.length - 1)
    let rev ← index (strings.Fields line) 0
    pure (rev ++ "~1".toList)
  else pure "HEAD".toList

/-- Source: `func (g *git) upstreamRevision(cwd string) (string, error)`.  The
variable `result`, which the deferred function stores, is declared but no
statement assigns it: it is the empty string on every path. -/
def git.upstreamRevision (env : Env) (g : git) (cwd : GoString) : Step GoString :=
  match g.revCache cwd with
  | some rev => ⟨.ok rev, g, []⟩
  | none =>
    let result : GoString := []
    let done (out : Outcome GoString) (trace : List Query) : Step GoString :=
      ⟨out, { g with revCache := deferStore g.revCache cwd result }, trace⟩
    match env.exec (localOnlyQuery cwd) with
    | .error e => done (.err e) [localOnlyQuery cwd]
    | .ok localOnly =>
      match selectorOf localOnly with
      | .error f => done (.panic f) [localOnlyQuery cwd]
      | .ok selector =>
        let trace := [localOnlyQuery cwd, revListQuery cwd selector]
        match env.exec (revListQuery cwd selector) with
        | .error e => done (.err e) trace
        | .ok rev => done (.ok (strings.TrimSpace rev)) trace

/-- The error of `baseURL` for an origin without the text `github.com`. -/
def notGithubError (origin : GoString) : GoString :=
  "origin doesn't look like github.com - exiting: ".toList ++ origin

/-- The error of `baseURL` for an origin of neither form. -/
def notSSHOrHTTPSError (origin : GoString) : GoString :=
  "origin doesn't look like SSH or HTTPS: ".toList ++ origin

/-- Source: `func (g *git) baseURL(cwd string) (*url.URL, error)`. -/
def git.baseURL (env : Env) (g : git) (cwd : GoString) : Step URL :=
  match g.baseURLCache cwd with
  | some baseURL => ⟨.ok baseURL, g, []⟩
  | none =>
    let done (out : Outcome URL) (result : Option URL) : Step URL :=
      ⟨out, { g with baseURLCache := deferStoreURL g.baseURLCache cwd result }, [originQuery cwd]⟩
    match env.exec (originQuery cwd) with
    | .error e => done (.err e) none
    | .ok origin =>
      let origin := strings.TrimSpace origin
      let origin := strings.TrimSuffix origin ".git".toList
      if strings.Contains origin "github.com".toList = false then
        done (.err (notGithubError origin)) none
      else if strings.HasPrefix origin "git@".toList then
        match index (strings.SplitN origin [':'] 2) 1 with
        | .error f => done (.panic f) none
        | .ok repo =>
          let repo := strings.TrimSuffix repo ".git".toList
          let baseURL := githubRoot.JoinPath [repo]
          done (.ok baseURL) (some baseURL)
      else if strings.HasPrefix origin "https".toList then
        match index (strings.SplitN origin "github.com/".toList 2) 1 with
        | .error f => done (.panic f) none
        | .ok repo =>
          let baseURL := githubRoot.JoinPath [repo]
          done (.ok baseURL) (some baseURL)
      else done (.err (notSSHOrHTTPSError origin)) none

/-! ## The URL composer and the driver -/

/-- Source: `func getFileURL(file string, blame bool) (*url.URL, error)`. -/
def getFileURL (env : Env) (g : git) (file : GoString) (blame : Bool) : Step URL :=
  match path.Abs env.getwd file with
  | .error _ => ⟨.err ("couldn't locate absolute path to ".toList ++ file), g, []⟩
  | .ok absFile =>
    let fileDir := path.Dir absFile
    let s1 := g.worktree env fileDir
    match s1.out with
    | .err e => ⟨.err e, s1.git, s1.trace⟩
    | .panic f => ⟨.panic f, s1.git, s1.trace⟩
    | .ok workTree =>
      let s2 := s1.git.upstreamRevision env workTree
      match s2.out with
      | .err e => ⟨.err e, s2.git, s1.trace ++ s2.trace⟩
      | .panic f => ⟨.panic f, s2.git, s1.trace ++ s2.trace⟩
      | .ok rev =>
        let s3 := s2.git.baseURL env workTree
        match s3.out with
        | .err e => ⟨.err e, s3.git, s1.trace ++ s2.trace ++ s3.trace⟩
        | .panic f => ⟨.panic f, s3.git, s1.trace ++ s2.trace ++ s3.trace⟩
        | .ok baseURL =>
          let mode := if blame then "blame".toList else "tree".toList
          let revURL := baseURL.JoinPath [mode, rev]
          ⟨.ok (revURL.JoinPath [strings.ReplaceFirst absFile workTree []]),
            s3.git, s1.trace ++ s2.trace ++ s3.trace⟩

/-- The fragment that `runCommand` sets on a resolved URL (source lines 91 to 97). -/
def setLineFragment (url : URL) (start end_ : Int) : URL :=
  let url := if start > 0 then { url with Fragment := 'L' :: fmtInt start } else url
  if end_ > 0 then { url with Fragment := url.Fragment ++ ('-' :: 'L' :: fmtInt end_) } else url

/-- One round of the loop of `runCommand` for the token `file`: the URL it
prints, if any. -/
def runCommandFile (env : Env) (g : git) (colonFilenames blame : Bool) (file : GoString) :
    Step (Option URL) :=
  match splitFilename file colonFilenames with
  | .error f => ⟨.panic f, g, []⟩
  | .ok (filename, start, end_) =>
    let s := getFileURL env g filename blame
    match s.out with
    | .err _ => ⟨.ok none, s.git, s.trace⟩
    | .panic f => ⟨.panic f, s.git, s.trace⟩
    | .ok url => ⟨.ok (some (setLineFragment url start end_)), s.git, s.trace⟩

/-- A sample world: the local-only listing has two commits, the selector
resolves to `0123456789`, the origin is an SSH remote on github.com, no
explicit work tree is configured and the process runs in the work tree. -/
def sampleEnv : Env where
  exec q :=
    if q.args.head? = some "log".toList then .ok "1111111 newer\n2222222 older\n".toList
    else if q.args.head? = some "rev-list".toList then .ok "0123456789\n".toList
    else if q.args.head? = some "rev-parse".toList then .ok "/home/user/link2code/.git\n".toList
    else if q = originQuery q.cwd then .ok "git@github.com:coxley/link2code.git\n".toList
    else .error "exit status 1".toList
  getwd := .ok "/home/user/link2code".toList

/-! ## The specification's vocabulary for remotes -/

/-- The host of a remote origin in the words of the specification: `H` in the
SSH form `git@H:P` and in the HTTPS form `https://H/P`. -/
def originHost (origin : GoString) : Option GoString :=
  if strings.HasPrefix origin "git@".toList then
    (strings.Cut [':'] (origin.drop 4)).map (fun ab => ab.1)
  else if strings.HasPrefix origin "https://".toList then
    (strings.Cut ['/'] (origin.drop 8)).map (fun ab => ab.1)
  else none

/-- A letter, a digit, `-` or `_`: the characters of organisation and
repository names. -/
def isNameChar (c : Char) : Bool := c.isAlphanum || c == '-' || c == '_'

/-! ## The claims' vocabulary -/

/-- A digit or a hyphen: the characters of the class `[0-9\-]`. -/
def isLineChar (c : Char) : Bool := c.isDigit || c == '-'

/-- The text starts with a `:` immediately followed by a digit or `-`. -/
def startsMark : GoString → Bool
  | c :: d :: _ => c == ':' && isLineChar d
  | _ => false

/-- The text contains a `:` immediately followed by a digit or `-`. -/
def lineMarked : GoString → Bool
  | [] => false
  | c :: t => startsMark (c :: t) || lineMarked t

/-- The text starts with a digit or `-`. -/
def startsLineChar : GoString → Bool
  | d :: _ => isLineChar d
  | [] => false

/-- The shape of the text matched by `(:[0-9\-]+)+`, as far as the proofs need
it: only digits, hyphens and colons, each colon immediately followed by a digit
or hyphen. -/
def suffixShaped : GoString → Bool
  | [] => true
  | c :: t => (isLineChar c || (c == ':' && startsLineChar t)) && suffixShaped t

/-- The text contains a `:` immediately followed by `-`. -/
def colonHyphen : GoString → Bool
  | [] => false
  | c :: t => (c == ':' && t.head? == some '-') || colonHyphen t

/-- The part of `splitFilename` after the match (source lines 154 to 185), for
the file name and the suffix stripped of its leading colons. -/
def parseSuffix (filename suffix : GoString) : Except Fault (GoString × Int × Int) :=
  if strings.Count suffix [':'] = 1 then do
    let s ← index (strings.Split suffix [':']) 0
    let start ← atoiOrPanic s
    pure (filename, start, 0)
  else if strings.Count suffix ['-'] = 1 then do
    let split := strings.Split suffix ['-']
    let start ← (index split 0) >>= atoiOrPanic
    let end_ ← (index split 1) >>= atoiOrPanic
    pure (filename, start, end_)
  else do
    let start ← atoiOrPanic suffix
    pure (filename, start, 0)

/-- A path element that `path.Clean` and `setPath` leave as it is: not empty,
without `/` and `%`, and neither `.` nor `..`. -/
abbrev plainSegment (x : GoString) : Prop :=
  x ≠ [] ∧ '/' ∉ x ∧ '%' ∉ x ∧ x ≠ ['.'] ∧ x ≠ ['.', '.']

/-- The rooted path with the given elements: `/a/b` for `a`, `b`. -/
def rootedPath (segs : List GoString) : GoString := (segs.map (fun x => '/' :: x)).flatten

/-- A natural number written in decimal. -/
def decimal (n : Nat) : GoString := (Nat.repr n).toList

namespace Regex

/-- The ways a regular expression can consume text: `Matches r s s1` says that
`r` matches the prefix of `s` that leaves `s1`. -/
inductive Matches : Regex → GoString → GoString → Prop
  | lit (c : Char) (t : GoString) : Matches (.lit c) (c :: t) t
  | cls (rs : List (Char × Char)) (d : Char) (t : GoString) :
      inClass rs d = true → Matches (.cls rs) (d :: t) t
  | seq {a b : Regex} {s s1 s2 : GoString} :
      Matches a s s1 → Matches b s1 s2 → Matches (.seq a b) s s2
  | optSkip (a : Regex) (s : GoString) : Matches (.opt a) s s
  | optTake {a : Regex} {s s1 : GoString} : Matches a s s1 → Matches (.opt a) s s1
  | plusOne {a : Regex} {s s1 : GoString} : Matches a s s1 → Matches (.plus a) s s1
  | plusMore {a : Regex} {s s1 s2 : GoString} :
      Matches a s s1 → Matches (.plus a) s1 s2 → Matches (.plus a) s s2
  | eot : Matches .eot [] []

end Regex

/-! ## Lemmas: the matcher -/

namespace Regex

theorem plusLoop_sound (a : Regex)
    (m : GoString → (GoString → Option GoString) → Option GoString)
    (hm : ∀ s k x, m s k = some x → ∃ s1, Matches a s s1 ∧ k s1 = some x) :
    ∀ n s k x, plusLoop m n s k = some x → ∃ s1, Matches (.plus a) s s1 ∧ k s1 = some x := by
  intro n
  induction n with
  | zero => intro s k x h; simp [plusLoop] at h
  | succ n ih =>
    intro s k x h
    rw [plusLoop] at h
    obtain ⟨s1, hs1, hk⟩ := hm _ _ _ h
    by_cases hlt : s1.length < s.length
    · rw [if_pos hlt] at hk
      cases hloop : plusLoop m n s1 k with
      | none =>
        rw [hloop] at hk
        exact ⟨s1, .plusOne hs1, by simpa using hk⟩
      | some y =>
        rw [hloop] at hk
        have hy : y = x := by simpa using hk
        subst hy
        obtain ⟨s2, hs2, hk2⟩ := ih _ _ _ hloop
        exact ⟨s2, .plusMore hs1 hs2, hk2⟩
    · rw [if_neg hlt] at hk
      exact ⟨s1, .plusOne hs1, hk⟩

/-- Soundness of the matcher: a result comes from a way the expression can
consume the text, followed by the continuation. -/
theorem run_sound (r : Regex) :
    ∀ s k x, run r s k = some x → ∃ s1, Matches r s s1 ∧ k s1 = some x := by
  induction r with
  | lit c =>
    intro s k x h
    cases s with
    | nil => simp [run] at h
    | cons d t =>
      simp only [run] at h
      split at h
      · next hd =>
        have : d = c := by simpa using hd
        subst this
        exact ⟨t, .lit d t, h⟩
      · simp at h
  | cls rs =>
    intro s k x h
    cases s with
    | nil => simp [run] at h
    | cons d t =>
      simp only [run] at h
      split at h
      · next hd => exact ⟨t, .cls rs d t hd, h⟩
      · simp at h
  | seq a b iha ihb =>
    intro s k x h
    simp only [run] at h
    obtain ⟨s1, h1, hk1⟩ := iha _ _ _ h
    obtain ⟨s2, h2, hk2⟩ := ihb _ _ _ hk1
    exact ⟨s2, .seq h1 h2, hk2⟩
  | opt a iha =>
    intro s k x h
    simp only [run] at h
    cases ha : run a s k with
    | none =>
      rw [ha] at h
      exact ⟨s, .optSkip a s, by simpa using h⟩
    | some y =>
      rw [ha] at h
      have hy : y = x := by simpa using h
      subst hy
      obtain ⟨s1, h1, hk1⟩ := iha _ _ _ ha
      exact ⟨s1, .optTake h1, hk1⟩
  | plus a iha =>
    intro s k x h
    simp only [run] at h
    exact plusLoop_sound a _ iha _ _ _ _ h
  | eot =>
    intro s k x h
    cases s with
    | nil => exact ⟨[], .eot, by simpa [run] using h⟩
    | cons d t => simp [run] at h

theorem isDigit_toNat (c : Char) :
    c.isDigit = (decide (48 ≤ c.toNat) && decide (c.toNat ≤ 57)) := by
  have h1 : (c.val ≥ 48) ↔ 48 ≤ c.toNat := by
    show (48 : UInt32) ≤ c.val ↔ _
    rw [UInt32.le_def]
    simp [Char.toNat, BitVec.le_def]
    rfl
  have h2 : (c.val ≤ 57) ↔ c.toNat ≤ 57 := by
    rw [UInt32.le_def]
    simp [Char.toNat, BitVec.le_def]
    rfl
  simp only [Char.isDigit, h1, h2]

theorem beq_hyphen_toNat (c : Char) : (c == '-') = decide (c.toNat = 45) := by
  have key : c = '-' ↔ c.toNat = 45 := by
    constructor
    · rintro rfl; rfl
    · intro h
      rw [← Char.ofNat_toNat c, h]
  by_cases h : c = '-'
  · have h2 := key.1 h
    simp [h, h2]
  · have h2 : ¬ c.toNat = 45 := fun h3 => h (key.2 h3)
    simp [h, h2]

/-- The class `[0-9\-]` holds the digits and the hyphen. -/
theorem inClass_lineClass (c : Char) : inClass lineClass c = isLineChar c := by
  have h0 : ('0' : Char).toNat = 48 := rfl
  have h9 : ('9' : Char).toNat = 57 := rfl
  have hm : ('-' : Char).toNat = 45 := rfl
  simp only [inClass, lineClass, List.any, isLineChar, isDigit_toNat, beq_hyphen_toNat,
    Bool.or_false, h0, h9, hm]
  by_cases h : c.toNat = 45
  · simp [h]
  · have : ¬ (45 ≤ c.toNat ∧ c.toNat ≤ 45) := fun h2 => h (by omega)
    simp [h, this]

theorem colon_not_lineChar : isLineChar ':' = false := by decide

/-- A match of the group `(:[0-9\-]+)` starts at a `:` followed by a digit or `-`. -/
theorem lineGroup_startsMark {s s1 : GoString} (h : Matches lineGroup s s1) :
    startsMark s = true := by
  unfold lineGroup at h
  cases h with
  | seq h1 h2 =>
    cases h1 with
    | lit c t =>
      cases h2 with
      | plusOne h3 =>
        cases h3 with
        | cls rs d t hd => simp [startsMark, ← inClass_lineClass, hd]
      | plusMore h3 _ =>
        cases h3 with
        | cls rs d t hd => simp [startsMark, ← inClass_lineClass, hd]

/-- One round of a greedy loop: if the round can consume `s` down to a shorter
`s1` in first priority, the loop then prefers another round from `s1` to leaving. -/
theorem plusLoop_round (m : GoString → (GoString → Option GoString) → Option GoString)
    (n : Nat) (s s1 : GoString) (k : GoString → Option GoString) (x : GoString)
    (hm : ∀ k1, k1 s1 = some x → m s k1 = some x) (hlen : s1.length < s.length)
    (hk : (plusLoop m n s1 k).orElse (fun _ => k s1) = some x) :
    plusLoop m (n + 1) s k = some x := by
  rw [plusLoop]
  apply hm
  rw [if_pos hlen]
  exact hk

/-- A greedy loop stops where a round cannot start. -/
theorem plusLoop_stop (m : GoString → (GoString → Option GoString) → Option GoString)
    (n : Nat) (s : GoString) (k : GoString → Option GoString)
    (hm : ∀ k1, m s k1 = none) : plusLoop m n s k = none := by
  cases n with
  | zero => rfl
  | succ n => rw [plusLoop]; exact hm _

/-- Greedy `[..]+` on a run of class characters that ends before `r`: the whole
run is the preferred match whenever the continuation accepts `r`. -/
theorem plus_cls_greedy (rs : List (Char × Char)) (k : GoString → Option GoString)
    (x : GoString) (r : GoString) (hr : ∀ d t, r = d :: t → inClass rs d = false)
    (hk : k r = some x) :
    ∀ (cs : GoString) (n : Nat), cs ≠ [] → (∀ c ∈ cs, inClass rs c = true) →
      cs.length ≤ n →
      plusLoop (fun s1 k1 => run (.cls rs) s1 k1) n (cs ++ r) k = some x := by
  have stop : ∀ n, plusLoop (fun s1 k1 => run (.cls rs) s1 k1) n r k = none := by
    intro n
    apply plusLoop_stop
    intro k1
    cases r with
    | nil => simp [run]
    | cons d t => simp [run, hr d t rfl]
  intro cs
  induction cs with
  | nil => intro n h; exact absurd rfl h
  | cons c cs ih =>
    intro n _ hall hn
    cases n with
    | zero => simp at hn
    | succ n =>
      have hc : inClass rs c = true := hall c (by simp)
      apply plusLoop_round _ n (c :: cs ++ r) (cs ++ r) k x
      · intro k1 hk1
        simp [run, hc, hk1]
      · simp
      · cases cs with
        | nil =>
          rw [List.nil_append, stop]
          simpa using hk
        | cons c2 cs2 =>
          rw [ih n (by simp) (fun c hc => hall c (by simp [hc])) (by simpa using hn)]
          rfl

/-- The group `(:[0-9\-]+)` on `:` followed by a run of digits and hyphens
that ends before `r`: the whole run is the preferred match whenever the
continuation accepts `r`. -/
theorem lineGroup_greedy (k : GoString → Option GoString) (x : GoString)
    (cs r : GoString) (hcs : cs ≠ []) (hall : ∀ c ∈ cs, isLineChar c = true)
    (hr : startsLineChar r = false) (hk : k r = some x) :
    run lineGroup (':' :: (cs ++ r)) k = some x := by
  simp only [lineGroup, run, beq_self_eq_true, if_true]
  apply plus_cls_greedy lineClass k x r _ hk cs _ hcs
  · intro c hc; rw [inClass_lineClass]; exact hall c hc
  · simp only [List.length_append]; omega
  · intro d t hd
    subst hd
    rw [inClass_lineClass]
    simpa [startsLineChar] using hr

/-- The group `(:[0-9\-]+)` does not match where the text does not start with
a `:` followed by a digit or `-`. -/
theorem lineGroup_none (s : GoString) (k : GoString → Option GoString)
    (h : startsMark s = false) : run lineGroup s k = none := by
  cases hrun : run lineGroup s k with
  | none => rfl
  | some x =>
    obtain ⟨s1, hs1, _⟩ := run_sound _ _ _ _ hrun
    rw [lineGroup_startsMark hs1] at h
    exact absurd h (by simp)

/-- The pattern `(:[0-9\-]+){1,2}` where one group is followed by text that
starts no second group: the match is that one group. -/
theorem filenameRe_run_one (cs r : GoString) (hcs : cs ≠ [])
    (hall : ∀ c ∈ cs, isLineChar c = true) (hr : startsLineChar r = false)
    (hr2 : startsMark r = false) :
    run filenameRe (':' :: (cs ++ r)) some = some r := by
  simp only [filenameRe, rep12, run]
  apply lineGroup_greedy _ _ cs r hcs hall hr
  show (run lineGroup r some).orElse (fun _ => some r) = some r
  rw [lineGroup_none r some hr2]
  rfl

/-- The pattern `(:[0-9\-]+){1,2}` on two groups in a row: both are matched. -/
theorem filenameRe_run_two (cs cs2 r : GoString) (hcs : cs ≠ [])
    (hall : ∀ c ∈ cs, isLineChar c = true) (hcs2 : cs2 ≠ [])
    (hall2 : ∀ c ∈ cs2, isLineChar c = true) (hr : startsLineChar r = false) :
    run filenameRe (':' :: (cs ++ ':' :: (cs2 ++ r))) some = some r := by
  simp only [filenameRe, rep12, run]
  apply lineGroup_greedy _ _ cs (':' :: (cs2 ++ r)) hcs hall (by simp [startsLineChar, colon_not_lineChar])
  show (run lineGroup (':' :: (cs2 ++ r)) some).orElse (fun _ => some (':' :: (cs2 ++ r))) = some r
  rw [lineGroup_greedy some r cs2 r hcs2 hall2 hr rfl]
  rfl

/-- Neither pattern matches where the text does not start with a `:` followed by
a digit or `-`. -/
theorem matchLen_none (fallback : Bool) (s : GoString) (h : startsMark s = false) :
    matchLen (if fallback then fallbackFilenameRe else filenameRe) s = none := by
  have key : ∀ re : Regex, (∀ s1, Matches re s s1 → startsMark s = true) →
      matchLen re s = none := by
    intro re hre
    unfold matchLen
    cases hrun : run re s some with
    | none => rfl
    | some x =>
      obtain ⟨s1, hs1, _⟩ := run_sound _ _ _ _ hrun
      rw [hre s1 hs1] at h
      exact absurd h (by simp)
  apply key
  intro s1 hm
  cases fallback with
  | false =>
    simp only [filenameRe, rep12, Bool.false_eq_true, if_false] at hm
    cases hm with
    | seq h1 _ => exact lineGroup_startsMark h1
  | true =>
    simp only [fallbackFilenameRe, if_true] at hm
    cases hm with
    | seq h1 _ =>
      cases h1 with
      | plusOne h2 => exact lineGroup_startsMark h2
      | plusMore h2 _ => exact lineGroup_startsMark h2

/-- The search skips a stretch of text in which no match starts. -/
theorem findFrom_skip (re : Regex) (s : GoString) :
    ∀ (p : GoString) (i : Nat),
      (∀ a b, p = a ++ b → b ≠ [] → matchLen re (b ++ s) = none) →
      findFrom re i (p ++ s) = findFrom re (i + p.length) s := by
  intro p
  induction p with
  | nil => intro i _; simp
  | cons c p ih =>
    intro i h
    have h0 := h [] (c :: p) rfl (by simp)
    rw [List.cons_append, findFrom]
    rw [List.cons_append] at h0
    rw [h0]
    simp only
    rw [ih (i + 1) (fun a b hab hb => h (c :: a) b (by simp [hab]) hb)]
    congr 1
    simp only [List.length_cons]
    omega

/-- The search finds nothing when no match starts anywhere. -/
theorem findFrom_none (re : Regex) :
    ∀ (s : GoString) (i : Nat), (∀ a b, s = a ++ b → matchLen re b = none) →
      findFrom re i s = none := by
  intro s
  induction s with
  | nil =>
    intro i h
    simp [findFrom, h [] [] rfl]
  | cons c t ih =>
    intro i h
    rw [findFrom, h [] (c :: t) rfl]
    simp only
    exact ih (i + 1) (fun a b hab => h (c :: a) b (by simp [hab]))

end Regex

/-! ## Lemmas: texts without a line suffix -/

theorem startsMark_of_lineMarked {s : GoString} (h : lineMarked s = false) :
    startsMark s = false := by
  cases s with
  | nil => rfl
  | cons c t =>
    rw [lineMarked, Bool.or_eq_false_iff] at h
    exact h.1

theorem lineMarked_append_right (a : GoString) {b : GoString}
    (h : lineMarked (a ++ b) = false) : lineMarked b = false := by
  induction a with
  | nil => simpa using h
  | cons c a ih =>
    rw [List.cons_append, lineMarked, Bool.or_eq_false_iff] at h
    exact ih h.2

theorem startsMark_suffix {p s : GoString} (hp : lineMarked p = false)
    (hs : startsLineChar s = false) (a b : GoString) (hab : p = a ++ b) (hb : b ≠ []) :
    startsMark (b ++ s) = false := by
  subst hab
  have hb2 := startsMark_of_lineMarked (lineMarked_append_right a hp)
  match b, hb, hb2 with
  | [c], _, _ =>
    cases s with
    | nil => rfl
    | cons d t =>
      have : isLineChar d = false := by simpa [startsLineChar] using hs
      simp [startsMark, this]
  | c :: d :: t, _, h2 => simpa [startsMark] using h2

/-- The meaning of `lineMarked`: somewhere in the text a `:` is immediately
followed by a digit or `-`. -/
theorem lineMarked_iff (s : GoString) :
    lineMarked s = true ↔
      ∃ a c b, s = a ++ ':' :: c :: b ∧ (c.isDigit = true ∨ c = '-') := by
  induction s with
  | nil => simp [lineMarked]
  | cons x t ih =>
    rw [lineMarked, Bool.or_eq_true, ih]
    constructor
    · rintro (h | ⟨a, c, b, rfl, hc⟩)
      · cases t with
        | nil => simp [startsMark] at h
        | cons d t =>
          simp only [startsMark, Bool.and_eq_true, beq_iff_eq, isLineChar, Bool.or_eq_true] at h
          exact ⟨[], d, t, by simp [h.1], h.2⟩
      · exact ⟨x :: a, c, b, rfl, hc⟩
    · rintro ⟨a, c, b, hs, hc⟩
      cases a with
      | nil =>
        left
        simp only [List.nil_append, List.cons.injEq] at hs
        obtain ⟨rfl, rfl⟩ := hs
        simpa [startsMark, isLineChar] using hc
      | cons y a =>
        right
        simp only [List.cons_append, List.cons.injEq] at hs
        exact ⟨a, c, b, hs.2, hc⟩

/-- A text without a line suffix has no match of either pattern. -/
theorem find_unmarked (fallback : Bool) (s : GoString) (h : lineMarked s = false) :
    Regex.FindStringIndex (if fallback then fallbackFilenameRe else filenameRe) s = none := by
  apply Regex.findFrom_none
  intro a b hab
  apply Regex.matchLen_none
  subst hab
  exact startsMark_of_lineMarked (lineMarked_append_right a h)

/-- In default mode the search passes over a path without a line suffix. -/
theorem find_after_path (p u : GoString) (hp : lineMarked p = false) :
    Regex.FindStringIndex filenameRe (p ++ ':' :: u) =
      Regex.findFrom filenameRe p.length (':' :: u) := by
  have := Regex.findFrom_skip filenameRe (':' :: u) p 0 (fun a b hab hb =>
    Regex.matchLen_none false _
      (startsMark_suffix hp (by simp [startsLineChar, Regex.colon_not_lineChar]) a b hab hb))
  simpa [Regex.FindStringIndex] using this

/-! ## Lemmas: package `strings` with a one-character separator -/

namespace strings

theorem Cut_single_none (c : Char) : ∀ s : GoString, c ∉ s → Cut [c] s = none := by
  intro s
  induction s with
  | nil => intro _; simp [Cut]
  | cons d t ih =>
    intro h
    have hd : d ≠ c := fun e => h (by simp [e])
    have ht : c ∉ t := fun e => h (by simp [e])
    simp [Cut, List.isPrefixOf, hd, Ne.symm hd, ih ht]

theorem Cut_single_some (c : Char) (b : GoString) :
    ∀ a : GoString, c ∉ a → Cut [c] (a ++ c :: b) = some (a, b) := by
  intro a
  induction a with
  | nil => intro _; simp [Cut, List.isPrefixOf]
  | cons d t ih =>
    intro h
    have hd : d ≠ c := fun e => h (by simp [e])
    have ht : c ∉ t := fun e => h (by simp [e])
    simp [Cut, List.isPrefixOf, hd, Ne.symm hd, ih ht]

theorem splitLoop_none (c : Char) (n : Nat) (s : GoString) (h : c ∉ s) :
    splitLoop [c] n s = [s] := by
  cases n with
  | zero => rfl
  | succ n => simp [splitLoop, Cut_single_none c s h]

theorem splitLoop_one (c : Char) (n : Nat) (a b : GoString) (ha : c ∉ a) (hb : c ∉ b) :
    splitLoop [c] (n + 1) (a ++ c :: b) = [a, b] := by
  simp [splitLoop, Cut_single_some c b a ha, splitLoop_none c n b hb]

theorem Count_none (c : Char) (s : GoString) (h : c ∉ s) : Count s [c] = 0 := by
  simp [Count, splitLoop_none c _ s h]

theorem Count_one (c : Char) (a b : GoString) (ha : c ∉ a) (hb : c ∉ b) :
    Count (a ++ c :: b) [c] = 1 := by
  have : (a ++ c :: b).length = (a.length + b.length) + 1 := by simp; omega
  simp [Count, this, splitLoop_one c _ a b ha hb]

theorem Split_one (c : Char) (a b : GoString) (ha : c ∉ a) (hb : c ∉ b) :
    Split (a ++ c :: b) [c] = [a, b] := by
  have : (a ++ c :: b).length = (a.length + b.length) + 1 := by simp; omega
  simp [Split, this, splitLoop_one c _ a b ha hb]

theorem TrimLeft_colon (s : GoString) (h : ∀ d t, s = d :: t → d ≠ ':') :
    TrimLeft (':' :: s) [':'] = s := by
  cases s with
  | nil => simp [TrimLeft]
  | cons d t =>
    have := h d t rfl
    simp [TrimLeft, List.dropWhile, this]

end strings

/-! ## Lemmas: package `strconv` and decimal numerals -/

namespace strconv

theorem parseDigits_append (a b : GoString) :
    ∀ acc, parseDigits (a ++ b) acc = (parseDigits a acc).bind (parseDigits b) := by
  induction a with
  | nil => intro acc; rfl
  | cons c a ih =>
    intro acc
    simp only [List.cons_append, parseDigits]
    split
    · exact ih _
    · rfl

theorem parseDigits_isDigit :
    ∀ (ds : GoString) (acc n : Nat), parseDigits ds acc = some n → ∀ c ∈ ds, c.isDigit = true := by
  intro ds
  induction ds with
  | nil => intro _ _ _ c hc; simp at hc
  | cons d ds ih =>
    intro acc n h c hc
    simp only [parseDigits] at h
    split at h
    · next hd =>
      rcases List.mem_cons.1 hc with rfl | hc
      · exact hd
      · exact ih _ _ h c hc
    · simp at h

theorem digitChar_isDigit (m : Nat) (h : m < 10) :
    (Nat.digitChar m).isDigit = true ∧ (Nat.digitChar m).toNat - 48 = m := by
  interval_cases m <;> decide

theorem toDigitsCore_append (fuel : Nat) :
    ∀ (n : Nat) (ds : List Char),
      Nat.toDigitsCore 10 fuel n ds = Nat.toDigitsCore 10 fuel n [] ++ ds := by
  induction fuel with
  | zero => intro n ds; simp [Nat.toDigitsCore]
  | succ fuel ih =>
    intro n ds
    simp only [Nat.toDigitsCore]
    split
    · simp
    · rw [ih (n / 10) (_ :: ds), ih (n / 10) [_]]
      simp

theorem parseDigits_toDigitsCore (fuel : Nat) :
    ∀ n, n < fuel → parseDigits (Nat.toDigitsCore 10 fuel n []) 0 = some n := by
  induction fuel with
  | zero => intro n h; omega
  | succ fuel ih =>
    intro n hn
    have hd := digitChar_isDigit (n % 10) (Nat.mod_lt _ (by omega))
    simp only [Nat.toDigitsCore]
    split
    · next h0 =>
      simp only [parseDigits, hd.1, hd.2, if_true]
      congr 1
      omega
    · next h0 =>
      rw [toDigitsCore_append, parseDigits_append, ih (n / 10) (by omega)]
      simp only [Option.bind, parseDigits, hd.1, hd.2, if_true]
      congr 1
      omega

end strconv

/-- Reading a decimal numeral gives back the number. -/
theorem parseDigits_decimal (n : Nat) : strconv.parseDigits (decimal n) 0 = some n :=
  strconv.parseDigits_toDigitsCore (n + 1) n (Nat.lt_succ_self n)

theorem decimal_ne_nil (n : Nat) : decimal n ≠ [] := by
  show Nat.toDigitsCore 10 (n + 1) n [] ≠ []
  simp only [Nat.toDigitsCore]
  split
  · simp
  · rw [strconv.toDigitsCore_append]; simp

theorem decimal_isDigit (n : Nat) : ∀ c ∈ decimal n, c.isDigit = true :=
  strconv.parseDigits_isDigit _ _ _ (parseDigits_decimal n)

theorem isDigit_facts {c : Char} (h : c.isDigit = true) :
    isLineChar c = true ∧ c ≠ ':' ∧ c ≠ '-' ∧ c ≠ '+' := by
  refine ⟨by simp [isLineChar, h], ?_, ?_, ?_⟩ <;>
  · rintro rfl
    exact absurd h (by decide)

/-- A non-empty run of digits whose value fits `int` is read by `Atoi`. -/
theorem Atoi_digits (ds : GoString) (n : Nat) (hne : ds ≠ [])
    (hp : strconv.parseDigits ds 0 = some n) (hn : n < 2 ^ 63) :
    strconv.Atoi ds = some (n : Int) := by
  cases ds with
  | nil => exact absurd rfl hne
  | cons c t =>
    have hc := isDigit_facts (strconv.parseDigits_isDigit _ _ _ hp c (by simp))
    have hn2 : n < 9223372036854775808 := by norm_num at hn; exact hn
    simp [strconv.Atoi, hc.2.2.1, hc.2.2.2, hp, hn2]

theorem atoiOrPanic_decimal (n : Nat) (hn : n < 2 ^ 63) :
    atoiOrPanic (decimal n) = .ok (n : Int) := by
  simp [atoiOrPanic, Atoi_digits _ n (decimal_ne_nil n) (parseDigits_decimal n) hn]

theorem digits_no_colon {ds : GoString} (h : ∀ c ∈ ds, c.isDigit = true) : ':' ∉ ds :=
  fun hm => (isDigit_facts (h _ hm)).2.1 rfl

theorem digits_no_hyphen {ds : GoString} (h : ∀ c ∈ ds, c.isDigit = true) : '-' ∉ ds :=
  fun hm => (isDigit_facts (h _ hm)).2.2.1 rfl

theorem digits_lineChar {ds : GoString} (h : ∀ c ∈ ds, c.isDigit = true) :
    ∀ c ∈ ds, isLineChar c = true :=
  fun c hc => (isDigit_facts (h c hc)).1

/-! ## Lemmas: `splitFilename` once the suffix is located -/

theorem take_path (p x : GoString) : (p ++ x).take p.length = p := by simp

theorem slice_suffix (p cs rest : GoString) :
    ((p ++ ':' :: (cs ++ rest)).take (p.length + (1 + cs.length))).drop p.length = ':' :: cs := by
  rw [List.take_append, List.drop_left]
  have : 1 + cs.length = cs.length + 1 := by omega
  rw [this, List.take_succ_cons, List.take_left]

/-- The part of `splitFilename` after the match, for a match `:cs` that follows
the path `p`. -/
theorem splitFilename_located (fallback : Bool) (p cs rest : GoString)
    (hfind : Regex.FindStringIndex (if fallback then fallbackFilenameRe else filenameRe)
      (p ++ ':' :: (cs ++ rest)) = some (p.length, p.length + (1 + cs.length)))
    (hcs : ∀ d t, cs = d :: t → d ≠ ':') :
    splitFilename (p ++ ':' :: (cs ++ rest)) fallback =
      (if strings.Count cs [':'] = 1 then do
        let s ← index (strings.Split cs [':']) 0
        let start ← atoiOrPanic s
        pure (p, start, 0)
      else if strings.Count cs ['-'] = 1 then do
        let start ← (index (strings.Split cs ['-']) 0) >>= atoiOrPanic
        let end_ ← (index (strings.Split cs ['-']) 1) >>= atoiOrPanic
        pure (p, start, end_)
      else do
        let start ← atoiOrPanic cs
        pure (p, start, 0)) := by
  simp only [splitFilename, hfind, take_path, slice_suffix, strings.TrimLeft_colon cs hcs]

/-- In default mode, one group after a path without a line suffix is the match. -/
theorem find_default_one (p cs r : GoString) (hp : lineMarked p = false) (hcs : cs ≠ [])
    (hall : ∀ c ∈ cs, isLineChar c = true) (hr : startsLineChar r = false)
    (hr2 : startsMark r = false) :
    Regex.FindStringIndex filenameRe (p ++ ':' :: (cs ++ r)) =
      some (p.length, p.length + (1 + cs.length)) := by
  rw [find_after_path p _ hp, Regex.findFrom, Regex.matchLen,
    Regex.filenameRe_run_one cs r hcs hall hr hr2]
  simp only [Option.map, List.length_cons, List.length_append]
  congr 3
  omega

/-- In default mode, two groups after a path without a line suffix are the match. -/
theorem find_default_two (p cs ms r : GoString) (hp : lineMarked p = false) (hcs : cs ≠ [])
    (hall : ∀ c ∈ cs, isLineChar c = true) (hms : ms ≠ [])
    (hall2 : ∀ c ∈ ms, isLineChar c = true) (hr : startsLineChar r = false) :
    Regex.FindStringIndex filenameRe (p ++ ':' :: (cs ++ ':' :: (ms ++ r))) =
      some (p.length, p.length + (1 + (cs ++ ':' :: ms).length)) := by
  rw [find_after_path p _ hp, Regex.findFrom, Regex.matchLen,
    Regex.filenameRe_run_two cs ms r hcs hall hms hall2 hr]
  simp only [Option.map, List.length_cons, List.length_append]
  congr 3
  omega

theorem head_ne_colon {cs : GoString} (h : ∀ c ∈ cs, c.isDigit = true) (x : GoString) :
    ∀ d t, cs ++ x = d :: t → cs ≠ [] → d ≠ ':' := by
  intro d t hd hne
  cases cs with
  | nil => exact absurd rfl hne
  | cons c cs =>
    simp only [List.cons_append, List.cons.injEq] at hd
    rw [← hd.1]
    exact (isDigit_facts (h c (by simp))).2.1

/-! ## Lemmas: the anchored pattern of the colon-tolerant mode -/

theorem startsLineChar_append {t : GoString} (b : GoString) (h : startsLineChar t = true) :
    startsLineChar (t ++ b) = true := by
  cases t with
  | nil => simp [startsLineChar] at h
  | cons d t => simpa [startsLineChar] using h

theorem suffixShaped_append (a b : GoString) (ha : suffixShaped a = true)
    (hb : suffixShaped b = true) : suffixShaped (a ++ b) = true := by
  induction a with
  | nil => simpa using hb
  | cons c a ih =>
    simp only [suffixShaped, Bool.and_eq_true, Bool.or_eq_true] at ha
    simp only [List.cons_append, suffixShaped, Bool.and_eq_true, Bool.or_eq_true]
    refine ⟨?_, ih ha.2⟩
    rcases ha.1 with h | h
    · exact Or.inl h
    · exact Or.inr ⟨h.1, startsLineChar_append b h.2⟩

theorem suffixShaped_run (cs : GoString) (h : ∀ c ∈ cs, isLineChar c = true) :
    suffixShaped cs = true := by
  induction cs with
  | nil => rfl
  | cons c cs ih =>
    simp [suffixShaped, h c (by simp), ih (fun d hd => h d (by simp [hd]))]

/-- Text whose last character is neither a digit nor `-`, followed by a colon,
does not have the shape of a suffix. -/
theorem suffixShaped_break (u : GoString) :
    ∀ b : GoString, b ≠ [] → (∀ c, b.getLast? = some c → isLineChar c = false) →
      suffixShaped (b ++ ':' :: u) = false := by
  intro b
  induction b with
  | nil => intro h; exact absurd rfl h
  | cons c b ih =>
    intro _ hlast
    cases b with
    | nil =>
      have hc : isLineChar c = false := hlast c (by simp)
      simp [suffixShaped, hc, startsLineChar, Regex.colon_not_lineChar]
    | cons d b =>
      have := ih (by simp) (fun x hx => hlast x (by simpa [List.getLast?_cons_cons] using hx))
      rw [List.cons_append, suffixShaped, this, Bool.and_false]

namespace Regex

theorem plus_cls_shape (rs : List (Char × Char)) {r : Regex} {s s1 : GoString}
    (h : Matches r s s1) (hr : r = .plus (.cls rs)) :
    ∃ cs : GoString, cs ≠ [] ∧ (∀ c ∈ cs, inClass rs c = true) ∧ s = cs ++ s1 := by
  induction h with
  | plusOne h1 =>
    cases hr
    cases h1 with
    | cls _ d t hd => exact ⟨[d], by simp, by simpa using hd, rfl⟩
  | plusMore h1 _ _ ih2 =>
    cases hr
    obtain ⟨cs, _, hall, hs⟩ := ih2 rfl
    cases h1 with
    | cls _ d t hd =>
      refine ⟨d :: cs, by simp, ?_, by simp [hs]⟩
      intro c hc
      rcases List.mem_cons.1 hc with rfl | hc
      · exact hd
      · exact hall c hc
  | _ => cases hr

theorem lineGroup_shape {s s1 : GoString} (h : Matches lineGroup s s1) :
    ∃ cs : GoString, cs ≠ [] ∧ (∀ c ∈ cs, isLineChar c = true) ∧ s = ':' :: (cs ++ s1) := by
  unfold lineGroup at h
  cases h with
  | seq h1 h2 =>
    cases h1 with
    | lit c t =>
      obtain ⟨cs, hne, hall, hs⟩ := plus_cls_shape lineClass h2 rfl
      exact ⟨cs, hne, fun c hc => by rw [← inClass_lineClass]; exact hall c hc, by rw [hs]⟩

theorem plus_lineGroup_shape {r : Regex} {s s1 : GoString}
    (h : Matches r s s1) (hr : r = .plus lineGroup) :
    ∃ m : GoString, suffixShaped m = true ∧ s = m ++ s1 := by
  have one : ∀ {s s1 : GoString}, Matches lineGroup s s1 →
      ∃ m : GoString, suffixShaped m = true ∧ s = m ++ s1 := by
    intro s s1 h1
    obtain ⟨cs, hne, hall, hs⟩ := lineGroup_shape h1
    refine ⟨':' :: cs, ?_, by simp [hs]⟩
    cases cs with
    | nil => exact absurd rfl hne
    | cons c cs =>
      have hrun := suffixShaped_run (c :: cs) hall
      simp [suffixShaped, startsLineChar, hall c (by simp)] at hrun ⊢
      exact hrun
  induction h with
  | plusOne h1 => cases hr; exact one h1
  | plusMore h1 _ _ ih2 =>
    cases hr
    obtain ⟨m2, hm2, hs2⟩ := ih2 rfl
    obtain ⟨m1, hm1, hs1⟩ := one h1
    exact ⟨m1 ++ m2, suffixShaped_append _ _ hm1 hm2, by rw [hs1, hs2, List.append_assoc]⟩
  | _ => cases hr

/-- A match of `(:[0-9\-]+)+$` reaches the end of the text and has the shape
of a suffix. -/
theorem fallback_shape {s s1 : GoString} (h : Matches fallbackFilenameRe s s1) :
    suffixShaped s = true := by
  unfold fallbackFilenameRe at h
  cases h with
  | seq h1 h2 =>
    cases h2 with
    | eot =>
      obtain ⟨m, hm, hs⟩ := plus_lineGroup_shape h1 rfl
      rw [hs, List.append_nil]
      exact hm

theorem fallback_matchLen_none (s : GoString) (h : suffixShaped s = false) :
    matchLen fallbackFilenameRe s = none := by
  unfold matchLen
  cases hrun : run fallbackFilenameRe s some with
  | none => rfl
  | some x =>
    obtain ⟨s1, hs1, _⟩ := run_sound _ _ _ _ hrun
    rw [fallback_shape hs1] at h
    exact absurd h (by simp)

/-- The anchored pattern on one group that ends the text. -/
theorem fallback_loop_one (n : Nat) (cs : GoString) (hcs : cs ≠ [])
    (hall : ∀ c ∈ cs, isLineChar c = true) :
    plusLoop (fun s1 k1 => run lineGroup s1 k1) (n + 1) (':' :: cs)
      (fun s1 => run eot s1 some) = some [] := by
  apply plusLoop_round _ n (':' :: cs) [] _ []
  · intro k1 hk1
    have := lineGroup_greedy k1 [] cs [] hcs hall rfl hk1
    simpa using this
  · simp
  · rw [plusLoop_stop _ n [] _ (fun k1 => lineGroup_none [] k1 rfl)]
    rfl

/-- The anchored pattern on two groups that end the text. -/
theorem fallback_loop_two (n : Nat) (cs ms : GoString) (hcs : cs ≠ [])
    (hall : ∀ c ∈ cs, isLineChar c = true) (hms : ms ≠ [])
    (hall2 : ∀ c ∈ ms, isLineChar c = true) :
    plusLoop (fun s1 k1 => run lineGroup s1 k1) (n + 2) (':' :: (cs ++ ':' :: ms))
      (fun s1 => run eot s1 some) = some [] := by
  apply plusLoop_round _ (n + 1) (':' :: (cs ++ ':' :: ms)) (':' :: ms) _ []
  · intro k1 hk1
    exact lineGroup_greedy k1 [] cs (':' :: ms) hcs hall
      (by simp [startsLineChar, colon_not_lineChar]) hk1
  · simp only [List.length_cons, List.length_append]; omega
  · rw [fallback_loop_one n ms hms hall2]
    rfl

end Regex

/-- In colon-tolerant mode, a suffix that the anchored pattern accepts from its
colon to the end of the text is the match when the path before it does not end
in a digit or `-`. -/
theorem find_fallback (p u : GoString)
    (hp : ∀ c, p.getLast? = some c → isLineChar c = false)
    (hrun : Regex.run fallbackFilenameRe (':' :: u) some = some []) :
    Regex.FindStringIndex fallbackFilenameRe (p ++ ':' :: u) =
      some (p.length, p.length + (1 + u.length)) := by
  have hskip := Regex.findFrom_skip fallbackFilenameRe (':' :: u) p 0 (fun a b hab hb => by
    apply Regex.fallback_matchLen_none
    apply suffixShaped_break u b hb
    intro c hc
    apply hp c
    rw [hab, List.getLast?_append_of_ne_nil _ hb]
    exact hc)
  rw [Regex.FindStringIndex, hskip, Regex.findFrom, Regex.matchLen, hrun]
  simp only [Option.map, List.length_cons, List.length_nil]
  congr 3 <;> omega

/-! ## The claims -/

/-- The cases of `TestSplitFilename` in `main_test.go` hold in the model. -/
theorem testSplitFilename_cases :
    splitFilename "path/to/file.txt".toList false = .ok ("path/to/file.txt".toList, 0, 0) ∧
    splitFilename "path/to/file.txt:1".toList false = .ok ("path/to/file.txt".toList, 1, 0) ∧
    splitFilename "path/to/file.txt:1-100".toList false =
      .ok ("path/to/file.txt".toList, 1, 100) ∧
    splitFilename "path/to/file.txt:1:20".toList false = .ok ("path/to/file.txt".toList, 1, 0) ∧
    splitFilename "foo/bar/baz/qux.go:3:import (".toList false =
      .ok ("foo/bar/baz/qux.go".toList, 3, 0) ∧
    splitFilename "path/to/t:123/file.txt:1:20".toList true =
      .ok ("path/to/t:123/file.txt".toList, 1, 0) := by
  refine ⟨?_, ?_, ?_, ?_, ?_, ?_⟩ <;> decide

/-- C1: in default mode, for a path `p` without a `:` immediately followed by a
digit or `-`, a natural number `N` in the range of `int` written in decimal,
and trailing text `r` that is empty or starts with `:` followed by a character
that is neither a digit nor `-`, `splitFilename (p ++ ":" ++ N ++ r, false)`
returns `(p, N, 0)`. -/
theorem splitFilename_line (p r : GoString) (N : Nat) (hp : lineMarked p = false)
    (hN : N < 2 ^ 63)
    (hr : r = [] ∨ ∃ c t, r = ':' :: c :: t ∧ isLineChar c = false) :
    splitFilename (p ++ [':'] ++ decimal N ++ r) false = .ok (p, (N : Int), 0) := by
  have hd := decimal_isDigit N
  have hr1 : startsLineChar r = false := by
    rcases hr with rfl | ⟨c, t, rfl, _⟩
    · rfl
    · simp [startsLineChar, Regex.colon_not_lineChar]
  have hr2 : startsMark r = false := by
    rcases hr with rfl | ⟨c, t, rfl, hc⟩
    · rfl
    · simp [startsMark, hc]
  have hfind := find_default_one p (decimal N) r hp (decimal_ne_nil N) (digits_lineChar hd) hr1 hr2
  have htext : p ++ [':'] ++ decimal N ++ r = p ++ ':' :: (decimal N ++ r) := by simp
  rw [htext, splitFilename_located false p (decimal N) r hfind
    (fun d t h => head_ne_colon hd [] d t (by simpa using h) (decimal_ne_nil N))]
  rw [strings.Count_none ':' _ (digits_no_colon hd), strings.Count_none '-' _ (digits_no_hyphen hd)]
  simp only [Nat.zero_ne_one, if_false, atoiOrPanic_decimal N hN]
  rfl

theorem splitFilename_line_witness :
    lineMarked "foo/bar/baz/qux.go".toList = false ∧
    splitFilename ("foo/bar/baz/qux.go".toList ++ [':'] ++ decimal 3 ++ ":import (".toList) false
      = .ok ("foo/bar/baz/qux.go".toList, 3, 0) :=
  ⟨by decide, splitFilename_line _ _ 3 (by decide) (by decide)
    (Or.inr ⟨'i', "mport (".toList, by decide, by decide⟩)⟩

/-- C2: in default mode, for a path `p` without a `:` immediately followed by a
digit or `-` and natural numbers `N`, `M` in the range of `int` written in
decimal, `splitFilename (p ++ ":" ++ N ++ "-" ++ M, false)` returns `(p, N, M)`. -/
theorem splitFilename_range (p : GoString) (N M : Nat) (hp : lineMarked p = false)
    (hN : N < 2 ^ 63) (hM : M < 2 ^ 63) :
    splitFilename (p ++ [':'] ++ decimal N ++ ['-'] ++ decimal M) false =
      .ok (p, (N : Int), (M : Int)) := by
  have hdN := decimal_isDigit N
  have hdM := decimal_isDigit M
  have hall : ∀ c ∈ decimal N ++ '-' :: decimal M, isLineChar c = true := by
    intro c hc
    rcases List.mem_append.1 hc with h | h
    · exact digits_lineChar hdN c h
    · rcases List.mem_cons.1 h with rfl | h
      · decide
      · exact digits_lineChar hdM c h
  have hcolon : ':' ∉ decimal N ++ '-' :: decimal M := by
    intro hc
    rcases List.mem_append.1 hc with h | h
    · exact digits_no_colon hdN h
    · rcases List.mem_cons.1 h with h | h
      · exact absurd h (by decide)
      · exact digits_no_colon hdM h
  have hfind := find_default_one p (decimal N ++ '-' :: decimal M) [] hp (by simp) hall rfl rfl
  have htext : p ++ [':'] ++ decimal N ++ ['-'] ++ decimal M =
      p ++ ':' :: ((decimal N ++ '-' :: decimal M) ++ []) := by simp
  rw [htext, splitFilename_located false p _ [] hfind
    (fun d t h => head_ne_colon hdN _ d t h (decimal_ne_nil N))]
  rw [strings.Count_none ':' _ hcolon,
    strings.Count_one '-' _ _ (digits_no_hyphen hdN) (digits_no_hyphen hdM),
    strings.Split_one '-' _ _ (digits_no_hyphen hdN) (digits_no_hyphen hdM)]
  simp only [Nat.zero_ne_one, if_false, if_true, index, List.getElem?_cons_zero,
    List.getElem?_cons_succ]
  show (atoiOrPanic (decimal N) >>= fun start =>
    atoiOrPanic (decimal M) >>= fun end_ => pure (p, start, end_)) = _
  rw [atoiOrPanic_decimal N hN, atoiOrPanic_decimal M hM]
  rfl

theorem splitFilename_range_witness :
    lineMarked "a/b.txt".toList = false ∧
    splitFilename ("a/b.txt".toList ++ [':'] ++ decimal 1 ++ ['-'] ++ decimal 100) false =
      .ok ("a/b.txt".toList, 1, 100) :=
  ⟨by decide, splitFilename_range _ 1 100 (by decide) (by decide) (by decide)⟩

/-- C3: in default mode, for a path `p` without a `:` immediately followed by a
digit or `-`, a natural number `N` in the range of `int` written in decimal and
a non-empty digit string `M`, `splitFilename (p ++ ":" ++ N ++ ":" ++ M, false)`
returns `(p, N, 0)`: the second number is matched but discarded. -/
theorem splitFilename_column (p M : GoString) (N : Nat) (hp : lineMarked p = false)
    (hN : N < 2 ^ 63) (hM : M ≠ []) (hMd : ∀ c ∈ M, c.isDigit = true) :
    splitFilename (p ++ [':'] ++ decimal N ++ [':'] ++ M) false = .ok (p, (N : Int), 0) := by
  have hdN := decimal_isDigit N
  have hfind := find_default_two p (decimal N) M [] hp (decimal_ne_nil N)
    (digits_lineChar hdN) hM (digits_lineChar hMd) rfl
  have htext : p ++ [':'] ++ decimal N ++ [':'] ++ M =
      p ++ ':' :: ((decimal N ++ ':' :: M) ++ []) := by simp
  have htext2 : p ++ ':' :: (decimal N ++ ':' :: (M ++ [])) =
      p ++ ':' :: ((decimal N ++ ':' :: M) ++ []) := by simp
  rw [htext2] at hfind
  rw [htext, splitFilename_located false p _ [] hfind
    (fun d t h => head_ne_colon hdN _ d t h (decimal_ne_nil N))]
  rw [strings.Count_one ':' _ _ (digits_no_colon hdN) (digits_no_colon hMd),
    strings.Split_one ':' _ _ (digits_no_colon hdN) (digits_no_colon hMd)]
  simp only [if_true, index, List.getElem?_cons_zero]
  show (atoiOrPanic (decimal N) >>= fun start => pure (p, start, 0)) = _
  rw [atoiOrPanic_decimal N hN]
  rfl

theorem splitFilename_column_witness :
    lineMarked "a/b.txt".toList = false ∧ "20".toList ≠ [] ∧
    splitFilename ("a/b.txt".toList ++ [':'] ++ decimal 1 ++ [':'] ++ "20".toList) false =
      .ok ("a/b.txt".toList, 1, 0) :=
  ⟨by decide, by decide,
    splitFilename_column _ _ 1 (by decide) (by decide) (by decide) (by decide)⟩

/-- C4: for a token without a `:` immediately followed by a digit or `-`, and
for both modes, `splitFilename` returns the token unchanged with both line
bounds unset. -/
theorem splitFilename_plain (token : GoString) (flag : Bool)
    (h : lineMarked token = false) :
    splitFilename token flag = .ok (token, 0, 0) := by
  simp only [splitFilename, find_unmarked flag token h]

theorem splitFilename_plain_witness :
    lineMarked "path/to/file.txt".toList = false ∧
    splitFilename "path/to/file.txt".toList true = .ok ("path/to/file.txt".toList, 0, 0) :=
  ⟨by decide, splitFilename_plain _ true (by decide)⟩

/-- C5: in colon-tolerant mode, for a path `p` whose last character is neither
a digit nor `-` (it may contain `:` followed by digits earlier), a natural
number `N` in the range of `int` written in decimal and a non-empty digit
string `M`, `splitFilename (p ++ ":" ++ N ++ ":" ++ M, true)` and
`splitFilename (p ++ ":" ++ N, true)` both return `(p, N, 0)`. -/
theorem splitFilename_colon_tolerant (p M : GoString) (N : Nat)
    (hp : ∀ c ∈ p.getLast?, isLineChar c = false)
    (hN : N < 2 ^ 63) (hM : M ≠ []) (hMd : ∀ c ∈ M, c.isDigit = true) :
    splitFilename (p ++ [':'] ++ decimal N ++ [':'] ++ M) true = .ok (p, (N : Int), 0) ∧
    splitFilename (p ++ [':'] ++ decimal N) true = .ok (p, (N : Int), 0) := by
  have hdN := decimal_isDigit N
  have hp2 : ∀ c, p.getLast? = some c → isLineChar c = false := fun c hc => hp c hc
  constructor
  · have hrun : Regex.run fallbackFilenameRe (':' :: (decimal N ++ ':' :: M)) some = some [] := by
      obtain ⟨n, hn⟩ : ∃ n, (':' :: (decimal N ++ ':' :: M)).length + 1 = n + 2 :=
        ⟨(decimal N ++ ':' :: M).length, by simp⟩
      simp only [fallbackFilenameRe, Regex.run]
      rw [hn]
      exact Regex.fallback_loop_two n _ _ (decimal_ne_nil N) (digits_lineChar hdN) hM
        (digits_lineChar hMd)
    have hfind := find_fallback p _ hp2 hrun
    have htext : p ++ [':'] ++ decimal N ++ [':'] ++ M =
        p ++ ':' :: ((decimal N ++ ':' :: M) ++ []) := by simp
    have htext2 : p ++ ':' :: (decimal N ++ ':' :: M) =
        p ++ ':' :: ((decimal N ++ ':' :: M) ++ []) := by simp
    rw [htext2] at hfind
    rw [htext, splitFilename_located true p _ [] hfind
      (fun d t h => head_ne_colon hdN _ d t h (decimal_ne_nil N))]
    rw [strings.Count_one ':' _ _ (digits_no_colon hdN) (digits_no_colon hMd),
      strings.Split_one ':' _ _ (digits_no_colon hdN) (digits_no_colon hMd)]
    simp only [if_true, index, List.getElem?_cons_zero]
    show (atoiOrPanic (decimal N) >>= fun start => pure (p, start, 0)) = _
    rw [atoiOrPanic_decimal N hN]
    rfl
  · have hrun : Regex.run fallbackFilenameRe (':' :: decimal N) some = some [] := by
      obtain ⟨n, hn⟩ : ∃ n, (':' :: decimal N).length + 1 = n + 1 :=
        ⟨(decimal N).length + 1, by simp⟩
      simp only [fallbackFilenameRe, Regex.run]
      rw [hn]
      exact Regex.fallback_loop_one n _ (decimal_ne_nil N) (digits_lineChar hdN)
    have hfind := find_fallback p _ hp2 hrun
    have htext : p ++ [':'] ++ decimal N = p ++ ':' :: (decimal N ++ []) := by simp
    have htext2 : p ++ ':' :: decimal N = p ++ ':' :: (decimal N ++ []) := by simp
    rw [htext2] at hfind
    rw [htext, splitFilename_located true p _ [] hfind
      (fun d t h => head_ne_colon hdN [] d t (by simpa using h) (decimal_ne_nil N))]
    rw [strings.Count_none ':' _ (digits_no_colon hdN),
      strings.Count_none '-' _ (digits_no_hyphen hdN)]
    simp only [Nat.zero_ne_one, if_false, atoiOrPanic_decimal N hN]
    rfl

theorem splitFilename_colon_tolerant_witness :
    lineMarked "path/to/t:123/file.txt".toList = true ∧
    splitFilename ("path/to/t:123/file.txt".toList ++ [':'] ++ decimal 1 ++ [':'] ++ "20".toList)
      true = .ok ("path/to/t:123/file.txt".toList, 1, 0) :=
  ⟨by decide,
    (splitFilename_colon_tolerant "path/to/t:123/file.txt".toList "20".toList 1
      (by decide) (by decide) (by decide) (by decide)).1⟩


/-! ## Lemmas: the git metadata resolver -/

theorem splitLoop_ne_nil (sep : GoString) (n : Nat) (s : GoString) :
    strings.splitLoop sep n s ≠ [] := by
  cases n with
  | zero => simp [strings.splitLoop]
  | succ n =>
    rw [strings.splitLoop]
    split <;> simp

/-- Whatever the listing, the selector is never `HEAD`: `strings.Split` gives
at least one line, so the branch that selects `HEAD` is not reached. -/
theorem selectorOf_ne_head (localOnly : GoString) :
    selectorOf localOnly ≠ .ok "HEAD".toList := by
  have hlen : (strings.Split (strings.TrimSpace localOnly) ['\n']).length > 0 := by
    simp only [strings.Split, List.isEmpty_cons, Bool.false_eq_true, if_false]
    exact List.length_pos.2 (splitLoop_ne_nil _ _ _)
  intro h
  simp only [selectorOf, hlen, if_true] at h
  cases h1 : index (strings.Split (strings.TrimSpace localOnly) ['\n'])
      ((strings.Split (strings.TrimSpace localOnly) ['\n']).length - 1) with
  | error f => rw [h1] at h; cases h
  | ok line =>
    rw [h1] at h
    cases h2 : index (strings.Fields line) 0 with
    | error f =>
      simp [bind, Except.bind, h2] at h
    | ok rev =>
      have h3 : rev ++ "~1".toList = "HEAD".toList := by
        simpa [bind, Except.bind, h2, pure, Except.pure] using h
      have h5 := congrArg List.getLast? h3
      rw [show "~1".toList = ['~', '1'] from rfl,
        show "HEAD".toList = ['H', 'E', 'A', 'D'] from rfl] at h5
      simp at h5

/-- The caches after `upstreamRevision` are the caches before it. -/
theorem upstreamRevision_git (env : Env) (g : git) (cwd : GoString) :
    (g.upstreamRevision env cwd).git = g := by
  unfold git.upstreamRevision
  have hstore : ({ g with revCache := deferStore g.revCache cwd [] } : git) = g := by
    simp [deferStore]
  split
  · rfl
  · simp only [hstore]
    split
    · rfl
    · split
      · rfl
      · split <;> rfl

/-! ## Lemmas: trimming and cutting -/

namespace strings

theorem dropWhile_all_append (f : Char → Bool) (w l : GoString) (h : ∀ c ∈ w, f c = true) :
    (w ++ l).dropWhile f = l.dropWhile f := by
  induction w with
  | nil => rfl
  | cons c w ih =>
    rw [List.cons_append, List.dropWhile_cons, if_pos (h c (by simp))]
    exact ih (fun d hd => h d (by simp [hd]))

/-- `TrimSpace` removes white space around a text that starts and ends with
characters that are not white space. -/
theorem TrimSpace_pad (w1 w2 core : GoString) (h1 : ∀ c ∈ w1, isSpace c = true)
    (h2 : ∀ c ∈ w2, isSpace c = true)
    (hhead : ∀ c ∈ core.head?, isSpace c = false)
    (hlast : ∀ c ∈ core.getLast?, isSpace c = false) (hne : core ≠ []) :
    TrimSpace (w1 ++ core ++ w2) = core := by
  have hd : (w1 ++ core ++ w2).dropWhile isSpace = core ++ w2 := by
    rw [List.append_assoc, dropWhile_all_append isSpace w1 _ h1]
    cases core with
    | nil => exact absurd rfl hne
    | cons c t =>
      have : isSpace c = false := hhead c (by simp)
      simp [List.dropWhile_cons, this]
  rw [TrimSpace, hd, List.rdropWhile, List.reverse_append,
    dropWhile_all_append isSpace _ _ (fun c hc => h2 c (List.mem_reverse.1 hc))]
  obtain ⟨c, hc⟩ : ∃ c, core.getLast? = some c := by
    cases h : core.getLast? with
    | none => exact absurd (List.getLast?_eq_none_iff.1 h) hne
    | some c => exact ⟨c, rfl⟩
  have hcs : isSpace c = false := hlast c hc
  have hrev : core.reverse.head? = some c := by rw [List.head?_reverse]; exact hc
  cases hr : core.reverse with
  | nil => rw [hr] at hrev; simp at hrev
  | cons d t =>
    rw [hr] at hrev
    have hdc : d = c := by simpa using hrev
    subst hdc
    rw [List.dropWhile_cons, if_neg (by simp [hcs]), ← hr, List.reverse_reverse]

theorem TrimSuffix_append (a suf : GoString) : TrimSuffix (a ++ suf) suf = a := by
  have : HasSuffix (a ++ suf) suf = true := by
    simp [HasSuffix]
  simp [TrimSuffix, this]

theorem TrimSuffix_none (s suf : GoString) (h : HasSuffix s suf = false) :
    TrimSuffix s suf = s := by
  simp [TrimSuffix, h]

/-- A cut at the first instance of the separator, found by trying the
positions of a prefix `a` one after the other. -/
theorem Cut_at (sep b : GoString) (hsep : sep ≠ []) :
    ∀ a : GoString, (∀ x y, a = x ++ y → y ≠ [] → sep.isPrefixOf (y ++ sep ++ b) = false) →
      Cut sep (a ++ sep ++ b) = some (a, b) := by
  intro a
  induction a with
  | nil =>
    intro _
    cases sep with
    | nil => exact absurd rfl hsep
    | cons c t =>
      have hp : (c :: t).isPrefixOf (c :: t ++ b) = true := by
        rw [List.isPrefixOf_iff_prefix]
        exact List.prefix_append _ _
      simp only [List.nil_append, List.cons_append] at hp ⊢
      rw [Cut, if_pos hp]
      simp
  | cons d a ih =>
    intro h
    have h0 := h [] (d :: a) rfl (by simp)
    simp only [List.cons_append] at h0 ⊢
    rw [Cut, if_neg (by rw [h0]; exact Bool.false_ne_true), ih (fun x y hxy hy => h (d :: x) y (by simp [hxy]) hy)]
    rfl

end strings

namespace strings

theorem isPrefixOf_append_right (b : GoString) :
    ∀ sep u : GoString, sep.length ≤ u.length →
      sep.isPrefixOf (u ++ b) = sep.isPrefixOf u := by
  intro sep
  induction sep with
  | nil => intro u _; simp [List.isPrefixOf]
  | cons c sep ih =>
    intro u hu
    cases u with
    | nil => simp at hu
    | cons d u =>
      have := ih u (by simpa using hu)
      simp only [List.cons_append, List.isPrefixOf]
      show (c == d && sep.isPrefixOf (u ++ b)) = _
      rw [this]

/-- The first instance of a separator in `a ++ sep` stays the first one when
text is appended. -/
theorem Cut_extend (sep b : GoString) (hsep : sep ≠ []) :
    ∀ a : GoString, Cut sep (a ++ sep) = some (a, []) → Cut sep (a ++ sep ++ b) = some (a, b) := by
  intro a
  induction a with
  | nil =>
    intro _
    exact Cut_at sep b hsep [] (fun x y hxy hy => by
      have := List.append_eq_nil.1 hxy.symm
      exact absurd this.2 hy)
  | cons d a ih =>
    intro h
    simp only [List.cons_append] at h ⊢
    rw [Cut] at h ⊢
    have hlen : sep.length ≤ (d :: (a ++ sep)).length := by
      simp only [List.length_cons, List.length_append]; omega
    have hp := isPrefixOf_append_right b sep (d :: (a ++ sep)) hlen
    simp only [List.cons_append] at hp
    by_cases hpre : sep.isPrefixOf (d :: (a ++ sep)) = true
    · rw [if_pos hpre] at h
      simp at h
    · rw [if_neg hpre] at h
      rw [hp, if_neg hpre]
      cases hc : Cut sep (a ++ sep) with
      | none => rw [hc] at h; simp at h
      | some ab =>
        rw [hc] at h
        have hab : ab = (a, []) := by
          obtain ⟨x, y⟩ := ab
          simp only [Option.map, Option.some.injEq, Prod.mk.injEq, List.cons.injEq,
            true_and] at h
          rw [h.1, h.2]
        rw [hab] at hc
        rw [ih hc]
        rfl

end strings

/-! ## Lemmas: organisation and repository names -/

theorem val_ge_toNat (c : Char) (k : UInt32) : (c.val ≥ k) ↔ k.toNat ≤ c.toNat := by
  show k ≤ c.val ↔ _
  rw [UInt32.le_def]
  simp [Char.toNat, BitVec.le_def]
  rfl

theorem val_le_toNat (c : Char) (k : UInt32) : (c.val ≤ k) ↔ c.toNat ≤ k.toNat := by
  rw [UInt32.le_def]
  simp [Char.toNat, BitVec.le_def]
  rfl

theorem isNameChar_toNat {c : Char} (h : isNameChar c = true) :
    (48 ≤ c.toNat ∧ c.toNat ≤ 57) ∨ (65 ≤ c.toNat ∧ c.toNat ≤ 90) ∨
    (97 ≤ c.toNat ∧ c.toNat ≤ 122) ∨ c.toNat = 45 ∨ c.toNat = 95 := by
  simp only [isNameChar, Bool.or_eq_true, beq_iff_eq] at h
  rcases h with (h | h) | h
  · simp only [Char.isAlphanum, Char.isAlpha, Char.isUpper, Char.isLower, Char.isDigit,
      val_ge_toNat, val_le_toNat, Bool.or_eq_true, Bool.and_eq_true, decide_eq_true_eq] at h
    have e1 : (48 : UInt32).toNat = 48 := rfl
    have e2 : (57 : UInt32).toNat = 57 := rfl
    have e3 : (65 : UInt32).toNat = 65 := rfl
    have e4 : (90 : UInt32).toNat = 90 := rfl
    have e5 : (97 : UInt32).toNat = 97 := rfl
    have e6 : (122 : UInt32).toNat = 122 := rfl
    rw [e1, e2, e3, e4, e5, e6] at h
    omega
  · subst h; right; right; right; left; rfl
  · subst h; right; right; right; right; rfl

theorem isNameChar_facts {c : Char} (h : isNameChar c = true) :
    c ≠ '/' ∧ c ≠ '.' ∧ strings.isSpace c = false := by
  have hn := isNameChar_toNat h
  refine ⟨?_, ?_, ?_⟩
  · rintro rfl
    have : ('/' : Char).toNat = 47 := rfl
    omega
  · rintro rfl
    have : ('.' : Char).toNat = 46 := rfl
    omega
  · simp only [strings.isSpace, Bool.or_eq_false_iff, Bool.and_eq_false_iff,
      decide_eq_false_iff_not, beq_eq_false_iff_ne, ne_eq]
    omega

/-- A path without `%` is its own decoding. -/
theorem unescape_plain : ∀ s : GoString, '%' ∉ s → URL.unescape s = some s := by
  intro s
  induction s with
  | nil => intro _; rfl
  | cons c t ih =>
    intro h
    have hc : c ≠ '%' := fun e => h (by simp [e])
    have ht : '%' ∉ t := fun e => h (by simp [e])
    unfold URL.unescape
    rw [if_neg hc, ih ht]
    rfl

theorem name_no_percent {n : GoString} (h : ∀ c ∈ n, isNameChar c = true) : '%' ∉ n := by
  intro hm
  have hn := isNameChar_toNat (h _ hm)
  have : ('%' : Char).toNat = 37 := rfl
  omega

theorem name_getLast {repo : GoString} (hne : repo ≠ [])
    (h : ∀ c ∈ repo, isNameChar c = true) (pre : GoString) :
    ∃ c, (pre ++ '/' :: repo).getLast? = some c ∧ isNameChar c = true := by
  obtain ⟨c, hc⟩ : ∃ c, repo.getLast? = some c := by
    cases hl : repo.getLast? with
    | none => exact absurd (List.getLast?_eq_none_iff.1 hl) hne
    | some c => exact ⟨c, rfl⟩
  refine ⟨c, ?_, h c (List.mem_of_getLast?_eq_some hc)⟩
  rw [List.getLast?_append_of_ne_nil _ (by simp), List.getLast?_cons, hc]
  rfl

theorem name_not_dots {n : GoString} (hne : n ≠ []) (h : ∀ c ∈ n, isNameChar c = true) :
    ¬ (n = [] ∨ n = ['.']) ∧ n ≠ ['.', '.'] := by
  refine ⟨?_, ?_⟩
  · rintro (h0 | h0)
    · exact hne h0
    · subst h0
      exact (isNameChar_facts (h '.' (by simp))).2.1 rfl
  · intro h0
    subst h0
    exact (isNameChar_facts (h '.' (by simp))).2.1 rfl

theorem name_no_slash {n : GoString} (h : ∀ c ∈ n, isNameChar c = true) : '/' ∉ n :=
  fun hm => (isNameChar_facts (h _ hm)).1 rfl

/-- A text that ends in `/` and a name does not end in `.git`. -/
theorem no_git_suffix (pre repo : GoString) (hne : repo ≠ [])
    (h : ∀ c ∈ repo, isNameChar c = true) :
    strings.HasSuffix (pre ++ '/' :: repo) ".git".toList = false := by
  cases hs : strings.HasSuffix (pre ++ '/' :: repo) ".git".toList with
  | false => rfl
  | true =>
    exfalso
    rw [strings.HasSuffix, List.isSuffixOf_iff_suffix, ← List.reverse_prefix] at hs
    rw [show ".git".toList = ['.', 'g', 'i', 't'] from rfl] at hs
    simp only [List.reverse_append, List.reverse_cons, List.reverse_nil, List.nil_append,
      List.cons_append, List.append_assoc] at hs
    have hr : ∀ c ∈ repo.reverse, isNameChar c = true := fun c hc => h c (List.mem_reverse.1 hc)
    have hrne : repo.reverse ≠ [] := by simpa using hne
    match hrev : repo.reverse, hrne, hr with
    | [a], _, _ => rw [hrev] at hs; simp [List.cons_prefix_cons] at hs
    | [a, b], _, _ => rw [hrev] at hs; simp [List.cons_prefix_cons] at hs
    | [a, b, c], _, _ => rw [hrev] at hs; simp [List.cons_prefix_cons] at hs
    | a :: b :: c :: d :: t, _, hr4 =>
      rw [hrev] at hs
      simp only [List.cons_append, List.cons_prefix_cons] at hs
      have hd := (isNameChar_facts (hr4 d (by simp))).2.1
      exact hd hs.2.2.2.1.symm

/-- Joining the root path with `org/repo` gives `/org/repo`. -/
theorem JoinPath_root_name (org repo : GoString) (horg : org ≠ [])
    (horgc : ∀ c ∈ org, isNameChar c = true) (hrepo : repo ≠ [])
    (hrepoc : ∀ c ∈ repo, isNameChar c = true) :
    githubRoot.JoinPath [org ++ '/' :: repo] =
      ⟨"https".toList, "github.com".toList, '/' :: (org ++ '/' :: repo), []⟩ := by
  have hsplit : ('/' :: '/' :: (org ++ '/' :: repo)).splitOn '/' = [[], [], org, repo] := by
    have : (List.intercalate ['/'] [[], [], org, repo]).splitOn '/' = [[], [], org, repo] :=
        List.splitOn_intercalate [[], [], org, repo] '/' (by
      intro l hl
      simp only [List.mem_cons, List.mem_singleton, List.not_mem_nil, or_false] at hl
      rcases hl with rfl | rfl | rfl | rfl
      · simp
      · simp
      · exact name_no_slash horgc
      · exact name_no_slash hrepoc) (by simp)
    simpa [List.intercalate] using this
  have hjoin : path.Join [['/'], org ++ '/' :: repo] = '/' :: (org ++ '/' :: repo) := by
    have h1 := name_not_dots horg horgc
    have h2 := name_not_dots hrepo hrepoc
    simp only [path.Join, List.dropWhile, List.isEmpty_cons, path.Clean]
    simp [List.intercalate, hsplit, path.cleanStep, h1.1, h1.2, h2.1, h2.2]
  have hlast : strings.HasSuffix (org ++ '/' :: repo) ['/'] = false := by
    cases hs : strings.HasSuffix (org ++ '/' :: repo) ['/'] with
    | false => rfl
    | true =>
      exfalso
      rw [strings.HasSuffix, List.isSuffixOf_iff_suffix] at hs
      obtain ⟨t, ht⟩ := hs
      obtain ⟨c, hc, hcn⟩ := name_getLast hrepo hrepoc org
      rw [← ht, List.getLast?_concat] at hc
      have : c = '/' := by simpa using hc.symm
      subst this
      exact (isNameChar_facts hcn).1 rfl
  have hplain : URL.unescape ('/' :: (org ++ '/' :: repo)) = some ('/' :: (org ++ '/' :: repo)) := by
    apply unescape_plain
    intro hm
    rcases List.mem_cons.1 hm with h | hm
    · exact absurd h (by decide)
    · rcases List.mem_append.1 hm with hm | hm
      · exact name_no_percent horgc hm
      · rcases List.mem_cons.1 hm with h | hm
        · exact absurd h (by decide)
        · exact name_no_percent hrepoc hm
  simp [URL.JoinPath, githubRoot, strings.HasPrefix, hjoin, hlast, hplain]

/-! ## The claims on the git metadata resolver -/

/-- C6: the code does not do what the claim says.  With an empty listing of
local-only commits `upstreamRevision` panics on `strings.Fields(line)[0]`
after the first query, instead of passing the selector `HEAD` to the rev-list
query; and no listing at all makes the selector `HEAD`. -/
theorem upstreamRevision_empty_listing :
    (Git.upstreamRevision ⟨fun _ => .ok [], .ok ['/']⟩ "/repo".toList).out =
      .panic (.indexOutOfRange 0 0) ∧
    (Git.upstreamRevision ⟨fun _ => .ok [], .ok ['/']⟩ "/repo".toList).trace =
      [localOnlyQuery "/repo".toList] ∧
    (Git.upstreamRevision ⟨fun _ => .ok "\n".toList, .ok ['/']⟩ "/repo".toList).out =
      .panic (.indexOutOfRange 0 0) ∧
    ∀ localOnly, selectorOf localOnly ≠ .ok "HEAD".toList :=
  ⟨by decide, by decide, by decide, selectorOf_ne_head⟩

/-- C7: the code does not do what the claim says.  `upstreamRevision` never
writes the revision cache: after a successful call on empty caches the cache
has no entry for the root, and a second call issues the same two queries again. -/
theorem upstreamRevision_not_cached :
    (∀ (env : Env) (g : git) (cwd : GoString), (g.upstreamRevision env cwd).git = g) ∧
    (Git.upstreamRevision sampleEnv "/repo".toList).out = .ok "0123456789".toList ∧
    (Git.upstreamRevision sampleEnv "/repo".toList).git.revCache "/repo".toList = none ∧
    ((Git.upstreamRevision sampleEnv "/repo".toList).git.upstreamRevision sampleEnv
      "/repo".toList).trace =
      [localOnlyQuery "/repo".toList, revListQuery "/repo".toList "2222222~1".toList] :=
  ⟨upstreamRevision_git, by decide, by decide, by decide⟩

/-- C8, as stated, fails: an origin whose host is not `github.com` but that
contains the text `github.com` is accepted and yields a URL, in the SSH form
and in the HTTPS form. -/
theorem baseURL_foreign_host_accepted :
    originHost "git@gitlab.com:github.com/gh/cli".toList = some "gitlab.com".toList ∧
    (Git.baseURL ⟨fun _ => .ok "git@gitlab.com:github.com/gh/cli.git\n".toList, .ok ['/']⟩
      "/repo".toList).out =
      .ok ⟨"https".toList, "github.com".toList, "/github.com/gh/cli".toList, []⟩ ∧
    originHost "https://gitlab.com/github.com/gh/cli".toList = some "gitlab.com".toList ∧
    (Git.baseURL ⟨fun _ => .ok "https://gitlab.com/github.com/gh/cli.git\n".toList, .ok ['/']⟩
      "/repo".toList).out =
      .ok ⟨"https".toList, "github.com".toList, "/gh/cli".toList, []⟩ :=
  ⟨by decide, by decide, by decide, by decide⟩

/-- C8, amended: when the root is not cached and the origin, trimmed of white
space and of one trailing `.git`, does not contain the text `github.com`,
`baseURL` returns the error that names this origin and no URL, after the one
query, and leaves the caches as they were. -/
theorem baseURL_rejects_without_github (env : Env) (g : git) (cwd raw : GoString)
    (hmiss : g.baseURLCache cwd = none) (hexec : env.exec (originQuery cwd) = .ok raw)
    (h : strings.Contains (strings.TrimSuffix (strings.TrimSpace raw) ".git".toList)
      "github.com".toList = false) :
    (g.baseURL env cwd).out =
      .err (notGithubError (strings.TrimSuffix (strings.TrimSpace raw) ".git".toList)) ∧
    (g.baseURL env cwd).git = g ∧
    (g.baseURL env cwd).trace = [originQuery cwd] := by
  simp only [git.baseURL, hmiss, hexec, h, if_true, deferStoreURL]
  exact ⟨trivial, trivial, trivial⟩

theorem baseURL_rejects_without_github_witness :
    (Git.baseURL ⟨fun _ => .ok "git@gitlab.com:gh/cli.git\n".toList, .ok ['/']⟩ "/repo".toList).out =
      .err "origin doesn't look like github.com - exiting: git@gitlab.com:gh/cli".toList :=
  (baseURL_rejects_without_github ⟨fun _ => .ok "git@gitlab.com:gh/cli.git\n".toList, .ok ['/']⟩
    Git "/repo".toList "git@gitlab.com:gh/cli.git\n".toList rfl rfl (by decide)).1

/-- The remote base URL of an origin that, once trimmed, is the SSH form on
github.com. -/
theorem baseURL_ssh (env : Env) (g : git) (cwd raw org repo : GoString)
    (hmiss : g.baseURLCache cwd = none) (hexec : env.exec (originQuery cwd) = .ok raw)
    (horg : org ≠ []) (horgc : ∀ c ∈ org, isNameChar c = true) (hrepo : repo ≠ [])
    (hrepoc : ∀ c ∈ repo, isNameChar c = true)
    (htrim : strings.TrimSuffix (strings.TrimSpace raw) ".git".toList =
      "git@github.com".toList ++ ':' :: (org ++ '/' :: repo)) :
    (g.baseURL env cwd).out =
      .ok ⟨"https".toList, "github.com".toList, '/' :: (org ++ '/' :: repo), []⟩ := by
  have hcontains : strings.Contains ("git@github.com".toList ++ ':' :: (org ++ '/' :: repo))
      "github.com".toList = true := by
    have h := strings.Cut_extend "github.com".toList (':' :: (org ++ '/' :: repo)) (by decide)
      "git@".toList (by decide)
    have e : "git@".toList ++ "github.com".toList ++ ':' :: (org ++ '/' :: repo) =
        "git@github.com".toList ++ ':' :: (org ++ '/' :: repo) := rfl
    rw [e] at h
    rw [strings.Contains, h]
    rfl
  have hpre : strings.HasPrefix ("git@github.com".toList ++ ':' :: (org ++ '/' :: repo))
      "git@".toList = true := rfl
  have hsplit : strings.SplitN ("git@github.com".toList ++ ':' :: (org ++ '/' :: repo)) [':'] 2 =
      ["git@github.com".toList, org ++ '/' :: repo] := by
    have hcut := strings.Cut_single_some ':' (org ++ '/' :: repo) "git@github.com".toList
      (by decide)
    have h2 : ((2 : Int).toNat - 1) = 0 + 1 := rfl
    simp only [strings.SplitN, List.isEmpty_cons, Bool.false_eq_true, if_false, h2,
      strings.splitLoop, hcut]
    rfl
  simp only [git.baseURL, hmiss, hexec, htrim, hcontains, hpre, hsplit, index,
    List.getElem?_cons_succ, List.getElem?_cons_zero,
    strings.TrimSuffix_none _ _ (no_git_suffix org repo hrepo hrepoc),
    JoinPath_root_name org repo horg horgc hrepo hrepoc]
  rfl

/-- The remote base URL of an origin that, once trimmed, is the HTTPS form on
github.com. -/
theorem baseURL_https (env : Env) (g : git) (cwd raw org repo : GoString)
    (hmiss : g.baseURLCache cwd = none) (hexec : env.exec (originQuery cwd) = .ok raw)
    (horg : org ≠ []) (horgc : ∀ c ∈ org, isNameChar c = true) (hrepo : repo ≠ [])
    (hrepoc : ∀ c ∈ repo, isNameChar c = true)
    (htrim : strings.TrimSuffix (strings.TrimSpace raw) ".git".toList =
      "https://".toList ++ "github.com/".toList ++ (org ++ '/' :: repo)) :
    (g.baseURL env cwd).out =
      .ok ⟨"https".toList, "github.com".toList, '/' :: (org ++ '/' :: repo), []⟩ := by
  have hcut := strings.Cut_extend "github.com/".toList (org ++ '/' :: repo) (by decide)
    "https://".toList (by decide)
  have hcontains : strings.Contains
      ("https://".toList ++ "github.com/".toList ++ (org ++ '/' :: repo))
      "github.com".toList = true := by
    have h := strings.Cut_extend "github.com".toList ('/' :: (org ++ '/' :: repo)) (by decide)
      "https://".toList (by decide)
    have e : "https://".toList ++ "github.com".toList ++ '/' :: (org ++ '/' :: repo) =
        "https://".toList ++ "github.com/".toList ++ (org ++ '/' :: repo) := rfl
    rw [e] at h
    rw [strings.Contains, h]
    rfl
  have hpre : strings.HasPrefix
      ("https://".toList ++ "github.com/".toList ++ (org ++ '/' :: repo)) "git@".toList = false :=
    rfl
  have hpre2 : strings.HasPrefix
      ("https://".toList ++ "github.com/".toList ++ (org ++ '/' :: repo)) "https".toList = true :=
    rfl
  have hsplit : strings.SplitN
      ("https://".toList ++ "github.com/".toList ++ (org ++ '/' :: repo))
      "github.com/".toList 2 = ["https://".toList, org ++ '/' :: repo] := by
    have h2 : ((2 : Int).toNat - 1) = 0 + 1 := rfl
    have h3 : ("github.com/".toList).isEmpty = false := rfl
    simp only [strings.SplitN, h3, Bool.false_eq_true, if_false, h2, strings.splitLoop, hcut]
    rfl
  simp only [git.baseURL, hmiss, hexec, htrim, hcontains, hpre, hpre2, hsplit, index,
    List.getElem?_cons_succ, List.getElem?_cons_zero,
    JoinPath_root_name org repo horg horgc hrepo hrepoc]
  rfl

/-- Trimming white space and `.git` from an origin that ends in `/` and a name. -/
theorem trim_origin (w1 w2 pre repo ext : GoString) (hw1 : ∀ c ∈ w1, strings.isSpace c = true)
    (hw2 : ∀ c ∈ w2, strings.isSpace c = true)
    (hpre : ∀ c ∈ (pre ++ '/' :: repo).head?, strings.isSpace c = false)
    (hrepo : repo ≠ []) (hrepoc : ∀ c ∈ repo, isNameChar c = true)
    (hext : ext = [] ∨ ext = ".git".toList) :
    strings.TrimSuffix (strings.TrimSpace (w1 ++ (pre ++ '/' :: repo ++ ext) ++ w2))
      ".git".toList = pre ++ '/' :: repo := by
  have hne : pre ++ '/' :: repo ++ ext ≠ [] := by simp
  have hhead : ∀ c ∈ (pre ++ '/' :: repo ++ ext).head?, strings.isSpace c = false := by
    intro c hc
    apply hpre c
    rw [List.head?_append_of_ne_nil _ (by simp)] at hc
    exact hc
  have hlast : ∀ c ∈ (pre ++ '/' :: repo ++ ext).getLast?, strings.isSpace c = false := by
    intro c hc
    rcases hext with rfl | rfl
    · obtain ⟨d, hd, hdn⟩ := name_getLast hrepo hrepoc pre
      rw [List.append_nil] at hc
      have : c = d := by
        have h2 : some c = some d := by rw [← hd]; exact hc.symm
        exact Option.some.inj h2
      subst this
      exact (isNameChar_facts hdn).2.2
    · have h2 : (pre ++ '/' :: repo ++ ".git".toList).getLast? = some 't' := by
        rw [List.getLast?_append_of_ne_nil _ (by decide)]
        rfl
      have : c = 't' := by
        have h3 : some c = some 't' := by rw [← h2]; exact hc.symm
        exact Option.some.inj h3
      subst this
      decide
  rw [strings.TrimSpace_pad w1 w2 _ hw1 hw2 hhead hlast hne]
  rcases hext with rfl | rfl
  · rw [List.append_nil]
    exact strings.TrimSuffix_none _ _ (no_git_suffix pre repo hrepo hrepoc)
  · exact strings.TrimSuffix_append _ _

/-- C9: for non-empty organisation and repository names made of letters,
digits, `-` and `_`, the base URL derived from the SSH origin
`git@github.com:org/repo.git` and from the HTTPS origin
`https://github.com/org/repo.git` (with or without `.git`, and with white
space around the origin) is `https://github.com/org/repo`. -/
theorem baseURL_github (env : Env) (g : git) (cwd org repo w1 w2 ext : GoString)
    (hmiss : g.baseURLCache cwd = none)
    (horg : org ≠ []) (horgc : ∀ c ∈ org, isNameChar c = true)
    (hrepo : repo ≠ []) (hrepoc : ∀ c ∈ repo, isNameChar c = true)
    (hw1 : ∀ c ∈ w1, strings.isSpace c = true) (hw2 : ∀ c ∈ w2, strings.isSpace c = true)
    (hext : ext = [] ∨ ext = ".git".toList)
    (hexec :
      env.exec (originQuery cwd) =
        .ok (w1 ++ ("git@github.com:".toList ++ org ++ ['/'] ++ repo ++ ext) ++ w2) ∨
      env.exec (originQuery cwd) =
        .ok (w1 ++ ("https://github.com/".toList ++ org ++ ['/'] ++ repo ++ ext) ++ w2)) :
    ∃ u : URL, (g.baseURL env cwd).out = .ok u ∧
      u.String = "https://github.com/".toList ++ org ++ ['/'] ++ repo := by
  refine ⟨⟨"https".toList, "github.com".toList, '/' :: (org ++ '/' :: repo), []⟩, ?_, ?_⟩
  · rcases hexec with hexec | hexec
    · apply baseURL_ssh env g cwd _ org repo hmiss hexec horg horgc hrepo hrepoc
      have e : "git@github.com:".toList ++ org ++ ['/'] ++ repo ++ ext =
          ("git@github.com:".toList ++ org) ++ '/' :: repo ++ ext := by simp
      rw [e, trim_origin w1 w2 _ repo ext hw1 hw2 (by intro c hc; cases hc; decide) hrepo hrepoc
        hext]
      rfl
    · apply baseURL_https env g cwd _ org repo hmiss hexec horg horgc hrepo hrepoc
      have e : "https://github.com/".toList ++ org ++ ['/'] ++ repo ++ ext =
          ("https://github.com/".toList ++ org) ++ '/' :: repo ++ ext := by simp
      rw [e, trim_origin w1 w2 _ repo ext hw1 hw2 (by intro c hc; cases hc; decide) hrepo hrepoc
        hext]
      rfl
  · simp [URL.String]

theorem baseURL_github_witness :
    ∃ u : URL, (Git.baseURL sampleEnv "/repo".toList).out = .ok u ∧
      u.String = "https://github.com/".toList ++ "coxley".toList ++ ['/'] ++ "link2code".toList :=
  baseURL_github sampleEnv Git "/repo".toList "coxley".toList "link2code".toList [] "\n".toList
    ".git".toList rfl (by decide) (by decide) (by decide) (by decide) (by decide) (by decide)
    (Or.inr rfl) (Or.inl (by decide))

/-! ## Lemmas: the fragment of a resolved URL -/

theorem JoinPath_Fragment (u : URL) (elem : List GoString) :
    (u.JoinPath elem).Fragment = u.Fragment := by
  unfold URL.JoinPath
  simp only
  split <;> rfl

theorem worktree_baseURLCache (env : Env) (g : git) (cwd : GoString) :
    (g.worktree env cwd).git.baseURLCache = g.baseURLCache := by
  unfold git.worktree
  split
  · rfl
  · simp only
    split
    · rfl
    · split
      · rfl
      · split
        · rfl
        · split <;> rfl

/-- A URL returned by `baseURL` has no fragment, if the cached ones have none. -/
theorem baseURL_Fragment (env : Env) (g : git) (cwd : GoString) (u : URL)
    (hg : ∀ k v, g.baseURLCache k = some v → v.Fragment = [])
    (h : (g.baseURL env cwd).out = .ok u) : u.Fragment = [] := by
  unfold git.baseURL at h
  split at h
  · next v hv =>
    have : v = u := by simpa using h
    subst this
    exact hg cwd v hv
  · simp only at h
    split at h
    · simp at h
    · split at h
      · simp at h
      · split at h
        · split at h
          · simp at h
          · have e := Outcome.ok.inj h
            rw [← e]
            exact JoinPath_Fragment _ _
        · split at h
          · split at h
            · simp at h
            · have e := Outcome.ok.inj h
              rw [← e]
              exact JoinPath_Fragment _ _
          · simp at h

/-- A URL returned by `getFileURL` has no fragment, if the cached ones have none. -/
theorem getFileURL_Fragment (env : Env) (g : git) (file : GoString) (blame : Bool) (u : URL)
    (hg : ∀ k v, g.baseURLCache k = some v → v.Fragment = [])
    (h : (getFileURL env g file blame).out = .ok u) : u.Fragment = [] := by
  unfold getFileURL at h
  split at h
  · simp at h
  · next absFile _ =>
    simp only at h
    split at h
    · simp at h
    · simp at h
    · next workTree _ =>
      split at h
      · simp at h
      · simp at h
      · next rev _ =>
        split at h
        · simp at h
        · simp at h
        · next baseURL hb =>
          have e := Outcome.ok.inj h
          rw [← e, JoinPath_Fragment, JoinPath_Fragment]
          apply baseURL_Fragment env _ workTree baseURL _ hb
          intro k v hkv
          rw [upstreamRevision_git, worktree_baseURLCache] at hkv
          exact hg k v hkv

theorem fmtInt_pos (i : Int) (h : 0 < i) : fmtInt i = decimal i.toNat := by
  have : ¬ i < 0 := by omega
  simp [fmtInt, this, decimal]

/-- The fragment built in the source lines 91 to 97. -/
theorem setLineFragment_Fragment (url : URL) (s e : Int) :
    (0 < s → e = 0 → (setLineFragment url s e).Fragment = 'L' :: decimal s.toNat) ∧
    (0 < s → 0 < e → (setLineFragment url s e).Fragment =
      'L' :: decimal s.toNat ++ '-' :: 'L' :: decimal e.toNat) ∧
    (s = 0 → e = 0 → setLineFragment url s e = url) := by
  refine ⟨?_, ?_, ?_⟩
  · intro hs he
    subst he
    simp [setLineFragment, hs, fmtInt_pos s hs]
  · intro hs he
    simp [setLineFragment, hs, he, fmtInt_pos s hs, fmtInt_pos e he]
  · intro hs he
    subst hs he
    simp [setLineFragment]

/-- C10: the fragment of a URL printed by the driver is a function of the parsed
`(start, end)`: `L<start>` for `start > 0` and `end = 0`, `L<start>-L<end>` for
`start > 0` and `end > 0`, and empty for `start = 0` and `end = 0` (the cached
base URLs having no fragment, as all those that `baseURL` stores). -/
theorem runCommandFile_fragment (env : Env) (g : git) (colonFilenames blame : Bool)
    (file filename : GoString) (s e : Int) (u : URL)
    (hg : ∀ k v, g.baseURLCache k = some v → v.Fragment = [])
    (hsplit : splitFilename file colonFilenames = .ok (filename, s, e))
    (hout : (runCommandFile env g colonFilenames blame file).out = .ok (some u)) :
    (0 < s → e = 0 → u.Fragment = 'L' :: decimal s.toNat) ∧
    (0 < s → 0 < e → u.Fragment = 'L' :: decimal s.toNat ++ '-' :: 'L' :: decimal e.toNat) ∧
    (s = 0 → e = 0 → u.Fragment = []) := by
  simp only [runCommandFile, hsplit] at hout
  split at hout
  · simp at hout
  · simp at hout
  · next url hurl =>
    have hu : setLineFragment url s e = u := by simpa using hout
    have hfrag := getFileURL_Fragment env g filename blame url hg hurl
    have hspec := setLineFragment_Fragment url s e
    rw [← hu]
    refine ⟨hspec.1, hspec.2.1, ?_⟩
    intro hs he
    rw [hspec.2.2 hs he]
    exact hfrag

theorem runCommandFile_fragment_witness :
    (runCommandFile sampleEnv Git false false "Makefile:5-10".toList).out =
      .ok (some ⟨"https".toList, "github.com".toList,
        "/coxley/link2code/tree/0123456789/Makefile".toList, "L5-L10".toList⟩) ∧
    "L5-L10".toList = 'L' :: decimal 5 ++ '-' :: 'L' :: decimal 10 :=
  ⟨by decide,
    (runCommandFile_fragment sampleEnv Git false false "Makefile:5-10".toList "Makefile".toList
      5 10 ⟨"https".toList, "github.com".toList,
        "/coxley/link2code/tree/0123456789/Makefile".toList, "L5-L10".toList⟩
      (fun _ _ h => by cases h) (by decide) (by decide)).2.1 (by decide) (by decide)⟩

/-! ## Lemmas: the sign of the parsed line numbers -/

theorem splitFilename_eq (text : GoString) (fallback : Bool) :
    splitFilename text fallback =
      match Regex.FindStringIndex (if fallback then fallbackFilenameRe else filenameRe) text with
      | none => .ok (text, 0, 0)
      | some (lo, hi) =>
        parseSuffix (text.take lo) (strings.TrimLeft ((text.take hi).drop lo) [':']) := rfl

namespace strings

theorem Cut_single_spec (c : Char) :
    ∀ s a b : GoString, Cut [c] s = some (a, b) → s = a ++ c :: b ∧ c ∉ a := by
  intro s
  induction s with
  | nil => intro a b h; simp [Cut] at h
  | cons d t ih =>
    intro a b h
    rw [Cut] at h
    by_cases hd : d = c
    · subst hd
      simp [List.isPrefixOf] at h
      obtain ⟨rfl, rfl⟩ := h
      simp
    · have hpre : List.isPrefixOf [c] (d :: t) = false := by
        simp [List.isPrefixOf, Ne.symm hd]
      rw [hpre] at h
      simp only [Bool.false_eq_true, if_false] at h
      cases hc : Cut [c] t with
      | none => rw [hc] at h; simp at h
      | some ab =>
        rw [hc] at h
        obtain ⟨x, y⟩ := ab
        simp only [Option.map, Option.some.injEq, Prod.mk.injEq] at h
        obtain ⟨rfl, rfl⟩ := h
        obtain ⟨h1, h2⟩ := ih x y hc
        refine ⟨by rw [h1]; rfl, ?_⟩
        intro hm
        rcases List.mem_cons.1 hm with e | hm
        · exact hd e.symm
        · exact h2 hm

theorem Cut_single_none_mem (c : Char) :
    ∀ s : GoString, Cut [c] s = none → c ∉ s := by
  intro s
  induction s with
  | nil => intro _; simp
  | cons d t ih =>
    intro h
    rw [Cut] at h
    by_cases hd : d = c
    · subst hd
      simp [List.isPrefixOf] at h
    · have hpre : List.isPrefixOf [c] (d :: t) = false := by
        simp [List.isPrefixOf, Ne.symm hd]
      rw [hpre] at h
      simp only [Bool.false_eq_true, if_false] at h
      cases hc : Cut [c] t with
      | none =>
        intro hm
        rcases List.mem_cons.1 hm with e | hm
        · exact hd e.symm
        · exact ih hc hm
      | some ab => rw [hc] at h; simp at h

/-- A text with exactly one instance of a one-character separator splits in
two parts that do not contain it. -/
theorem Count_eq_one (c : Char) (s : GoString) (h : Count s [c] = 1) :
    ∃ a b, Split s [c] = [a, b] ∧ s = a ++ c :: b ∧ c ∉ a ∧ c ∉ b := by
  simp only [Count, List.isEmpty_cons, Bool.false_eq_true, if_false] at h
  simp only [Split, List.isEmpty_cons, Bool.false_eq_true, if_false]
  cases hl : s.length with
  | zero => rw [hl] at h; simp [splitLoop] at h
  | succ n =>
    rw [hl] at h
    rw [splitLoop] at h ⊢
    cases hc : Cut [c] s with
    | none => rw [hc] at h; simp at h
    | some ab =>
      obtain ⟨a, b⟩ := ab
      rw [hc] at h
      obtain ⟨hs, ha⟩ := Cut_single_spec c s a b hc
      simp only [List.length_cons] at h
      have hb : c ∉ b := by
        cases n with
        | zero =>
          have : (a ++ c :: b).length = 1 := by rw [← hs]; exact hl
          simp at this
          have hb0 : b = [] := by
            cases b with
            | nil => rfl
            | cons x y => simp at this; omega
          rw [hb0]; simp
        | succ m =>
          rw [splitLoop] at h
          cases hc2 : Cut [c] b with
          | none => exact Cut_single_none_mem c b hc2
          | some xy =>
            rw [hc2] at h
            simp at h
            exact absurd h (splitLoop_ne_nil _ _ _)
      refine ⟨a, b, ?_, hs, ha, hb⟩
      simp only
      rw [splitLoop_none c n b hb]

/-- The first part of a split is a prefix of the text that does not contain
the separator. -/
theorem Split_first (c : Char) (s x : GoString) (h : index (Split s [c]) 0 = .ok x) :
    (∃ y, s = x ++ y) ∧ c ∉ x := by
  simp only [Split, List.isEmpty_cons, Bool.false_eq_true, if_false] at h
  cases hl : s.length with
  | zero =>
    rw [hl] at h
    have hs : s = [] := List.length_eq_zero.1 hl
    simp [splitLoop, index] at h
    subst h
    exact ⟨⟨[], by simp⟩, by simp [hs]⟩
  | succ n =>
    rw [hl, splitLoop] at h
    cases hc : Cut [c] s with
    | none =>
      rw [hc] at h
      simp [index] at h
      subst h
      exact ⟨⟨[], by simp⟩, Cut_single_none_mem c _ hc⟩
    | some ab =>
      obtain ⟨a, b⟩ := ab
      rw [hc] at h
      simp [index] at h
      subst h
      obtain ⟨hs, ha⟩ := Cut_single_spec c s _ b hc
      exact ⟨⟨c :: b, hs⟩, ha⟩

end strings

/-- `Atoi` gives a negative number only for a text that starts with `-`. -/
theorem Atoi_neg (x : GoString) (v : Int) (h : strconv.Atoi x = some v) (hv : v < 0) :
    ∃ t, x = '-' :: t ∧ ∀ c ∈ t, c.isDigit = true := by
  cases x with
  | nil => simp [strconv.Atoi] at h
  | cons c t =>
    by_cases hc : c = '-'
    · subst hc
      refine ⟨t, rfl, ?_⟩
      cases hp : strconv.parseDigits t 0 with
      | none => simp [strconv.Atoi, hp] at h
      | some n => exact strconv.parseDigits_isDigit _ _ _ hp
    · exfalso
      have hneg : (c == '-') = false := by simpa using hc
      simp only [strconv.Atoi, hneg, Bool.false_or, Bool.false_eq_true, if_false] at h
      generalize (if (c == '+') = true then t else c :: t) = body at h
      by_cases hb : body.isEmpty = true
      · rw [if_pos hb] at h; cases h
      · rw [if_neg hb] at h
        cases hp : strconv.parseDigits body 0 with
        | none => rw [hp] at h; cases h
        | some n =>
          rw [hp] at h
          simp only at h
          by_cases hn : n < 2 ^ 63
          · rw [if_pos hn] at h
            have : (n : Int) = v := Option.some.inj h
            omega
          · rw [if_neg hn] at h; cases h

/-- `Atoi` gives no negative number for a text without `-`. -/
theorem Atoi_nonneg (x : GoString) (v : Int) (h : strconv.Atoi x = some v) (hx : '-' ∉ x) :
    0 ≤ v := by
  by_contra hv
  obtain ⟨t, rfl, _⟩ := Atoi_neg x v h (by omega)
  exact hx (by simp)

theorem atoiOrPanic_ok {x : GoString} {v : Int} (h : atoiOrPanic x = .ok v) :
    strconv.Atoi x = some v := by
  unfold atoiOrPanic at h
  split at h
  · next n hn => rw [hn]; exact congrArg some (Except.ok.inj h)
  · cases h

/-- The signs of the numbers that the suffix handler returns: the end is never
negative, and the start only for a suffix that starts with `-`, with no end. -/
theorem parseSuffix_bounds (filename suffix name : GoString) (s e : Int)
    (h : parseSuffix filename suffix = .ok (name, s, e)) :
    0 ≤ e ∧ (0 < e → 0 ≤ s) ∧ (s < 0 → ∃ t, suffix = '-' :: t) := by
  unfold parseSuffix at h
  split at h
  · -- one colon: the part before it is the start
    cases h0 : index (strings.Split suffix [':']) 0 with
    | error f => rw [h0] at h; cases h
    | ok x =>
      rw [h0] at h
      cases h1 : atoiOrPanic x with
      | error f => simp [bind, Except.bind, h1] at h
      | ok v =>
        simp [bind, Except.bind, h1, pure, Except.pure] at h
        obtain ⟨_, rfl, rfl⟩ := h
        refine ⟨le_refl _, fun h0 => absurd h0 (by decide), ?_⟩
        intro hv
        obtain ⟨t, rfl, _⟩ := Atoi_neg x v (atoiOrPanic_ok h1) hv
        obtain ⟨⟨y, hy⟩, _⟩ := strings.Split_first ':' suffix _ h0
        exact ⟨t ++ y, by rw [hy]; rfl⟩
  · split at h
    · -- one hyphen: both parts are free of hyphens
      next hcount =>
      obtain ⟨a, b, hsplit, _, ha, hb⟩ := strings.Count_eq_one '-' suffix hcount
      simp only [hsplit, index, List.getElem?_cons_zero, List.getElem?_cons_succ] at h
      cases h1 : atoiOrPanic a with
      | error f => simp [bind, Except.bind, h1] at h
      | ok v =>
        cases h2 : atoiOrPanic b with
        | error f => simp [bind, Except.bind, h1, h2] at h
        | ok w =>
          simp [bind, Except.bind, h1, h2, pure, Except.pure] at h
          obtain ⟨_, rfl, rfl⟩ := h
          have hv := Atoi_nonneg a v (atoiOrPanic_ok h1) ha
          have hw := Atoi_nonneg b w (atoiOrPanic_ok h2) hb
          exact ⟨hw, fun _ => hv, fun hneg => absurd hv (by omega)⟩
    · -- neither: the whole suffix is the start
      next hcount =>
      cases h1 : atoiOrPanic suffix with
      | error f => simp [bind, Except.bind, h1] at h
      | ok v =>
        simp [bind, Except.bind, h1, pure, Except.pure] at h
        obtain ⟨_, rfl, rfl⟩ := h
        refine ⟨le_refl _, fun h0 => absurd h0 (by decide), ?_⟩
        intro hv
        obtain ⟨t, ht, _⟩ := Atoi_neg suffix v (atoiOrPanic_ok h1) hv
        exact ⟨t, ht⟩

namespace Regex

/-- What the search returns is a match: it starts after a stretch `a` of the
text and has the length that `matchLen` gives there. -/
theorem findFrom_some (re : Regex) :
    ∀ (s : GoString) (i lo hi : Nat), findFrom re i s = some (lo, hi) →
      ∃ a b n, s = a ++ b ∧ lo = i + a.length ∧ hi = lo + n ∧ matchLen re b = some n := by
  intro s
  induction s with
  | nil =>
    intro i lo hi h
    rw [findFrom] at h
    cases hm : matchLen re [] with
    | none => rw [hm] at h; simp at h
    | some n =>
      rw [hm] at h
      simp only [Option.map, Option.some.injEq, Prod.mk.injEq] at h
      exact ⟨[], [], n, rfl, by simp [h.1], by omega, hm⟩
  | cons c t ih =>
    intro i lo hi h
    rw [findFrom] at h
    cases hm : matchLen re (c :: t) with
    | some n =>
      rw [hm] at h
      simp only [Option.some.injEq, Prod.mk.injEq] at h
      exact ⟨[], c :: t, n, rfl, by simp [h.1], by omega, hm⟩
    | none =>
      rw [hm] at h
      simp only at h
      obtain ⟨a, b, n, hs, hlo, hhi, hb⟩ := ih (i + 1) lo hi h
      exact ⟨c :: a, b, n, by rw [hs]; rfl, by simp only [List.length_cons]; omega, hhi, hb⟩

end Regex

theorem colonHyphen_append (r : GoString) :
    ∀ a : GoString, colonHyphen (a ++ ':' :: '-' :: r) = true := by
  intro a
  induction a with
  | nil => simp [colonHyphen]
  | cons c a ih => rw [List.cons_append, colonHyphen, ih, Bool.or_true]

/-- The signs of the numbers that `splitFilename` returns: the end is never
negative, it is positive only with a start that is not negative, and the start
is negative only for a token with a `:` immediately followed by `-`. -/
theorem splitFilename_bounds (text : GoString) (fallback : Bool) (name : GoString)
    (s e : Int) (h : splitFilename text fallback = .ok (name, s, e)) :
    0 ≤ e ∧ (0 < e → 0 ≤ s) ∧ (s < 0 → colonHyphen text = true) := by
  rw [splitFilename_eq] at h
  cases hf : Regex.FindStringIndex (if fallback then fallbackFilenameRe else filenameRe) text with
  | none =>
    rw [hf] at h
    have h2 := Except.ok.inj h
    simp only [Prod.mk.injEq] at h2
    obtain ⟨_, hs, he⟩ := h2
    subst hs he
    exact ⟨le_refl _, fun h0 => absurd h0 (by decide), fun h0 => absurd h0 (by decide)⟩
  | some loc =>
    obtain ⟨lo, hi⟩ := loc
    rw [hf] at h
    simp only at h
    obtain ⟨he, hes, hneg⟩ := parseSuffix_bounds _ _ _ _ _ h
    refine ⟨he, hes, ?_⟩
    intro hs
    obtain ⟨t, ht⟩ := hneg hs
    obtain ⟨a, b, n, htext, hlo, hhi, hm⟩ := Regex.findFrom_some _ text 0 lo hi hf
    have hmark : startsMark b = true := by
      cases hsm : startsMark b with
      | true => rfl
      | false => rw [Regex.matchLen_none fallback b hsm] at hm; cases hm
    have hlo2 : lo = a.length := by omega
    have hslice : (text.take hi).drop lo = b.take n := by
      rw [htext, hhi, hlo2, List.take_append, List.drop_left]
    rw [hslice] at ht
    match b, hmark with
    | c :: d :: b2, hmark2 =>
      simp only [startsMark, Bool.and_eq_true, beq_iff_eq] at hmark2
      obtain ⟨hc, hd⟩ := hmark2
      subst hc
      have hdc : d ≠ ':' := by
        rintro rfl
        rw [Regex.colon_not_lineChar] at hd
        cases hd
      match n with
      | 0 => simp [strings.TrimLeft] at ht
      | 1 => simp [strings.TrimLeft] at ht
      | n + 2 =>
        simp [strings.TrimLeft, List.dropWhile, hdc] at ht
        rw [htext, ht.1]
        exact colonHyphen_append b2 a

/-! ## The claims on the line numbers -/

/-- C11, as stated, fails: the token `a:-1:2` is parsed without a panic, in
both modes, and the start that is returned is negative. -/
theorem splitFilename_negative_start :
    splitFilename "a:-1:2".toList false = .ok ("a".toList, -1, 0) ∧
    splitFilename "a:-1:2".toList true = .ok ("a".toList, -1, 0) :=
  ⟨by decide, by decide⟩

/-- C11, amended: for every token and both modes, when `splitFilename` returns
normally the end is a non-negative integer, and the start is non-negative
unless the token has a `:` immediately followed by `-`; a negative start comes
with no end. -/
theorem splitFilename_signs (text : GoString) (fallback : Bool) (name : GoString)
    (s e : Int) (h : splitFilename text fallback = .ok (name, s, e)) :
    0 ≤ e ∧ (colonHyphen text = false → 0 ≤ s) ∧ (s < 0 → e = 0) := by
  obtain ⟨he, hes, hneg⟩ := splitFilename_bounds text fallback name s e h
  refine ⟨he, ?_, ?_⟩
  · intro hc
    by_contra hs
    rw [hneg (by omega)] at hc
    cases hc
  · intro hs
    by_contra he0
    have := hes (by omega)
    omega

theorem splitFilename_signs_witness :
    splitFilename "a/b.txt:3-7".toList false = .ok ("a/b.txt".toList, 3, 7) ∧
    ((0 : Int) ≤ 7 ∧ (colonHyphen "a/b.txt:3-7".toList = false → (0 : Int) ≤ 3) ∧
      ((3 : Int) < 0 → (7 : Int) = 0)) :=
  ⟨by decide, splitFilename_signs "a/b.txt:3-7".toList false "a/b.txt".toList 3 7 (by decide)⟩

/-- C12, as stated, fails: the token `a:0-5` gives an end without a start, and
the fragment that the driver builds from it is the bare `-L5`. -/
theorem splitFilename_end_without_start :
    splitFilename "a:0-5".toList false = .ok ("a".toList, 0, 5) ∧
    (runCommandFile sampleEnv Git false false "Makefile:0-5".toList).out =
      .ok (some ⟨"https".toList, "github.com".toList,
        "/coxley/link2code/tree/0123456789/Makefile".toList, "-L5".toList⟩) :=
  ⟨by decide, by decide⟩

/-- C12, amended: for every token and both modes, if `splitFilename` returns
with an end (`end > 0`) then the start is not negative; with such a result the
driver builds the fragment `L<start>-L<end>` when `start > 0`, and appends the
bare `-L<end>` when `start = 0`. -/
theorem splitFilename_end_start (text : GoString) (fallback : Bool) (name : GoString)
    (s e : Int) (url : URL) (h : splitFilename text fallback = .ok (name, s, e))
    (he : 0 < e) :
    0 ≤ s ∧
    (0 < s → (setLineFragment url s e).Fragment =
      'L' :: decimal s.toNat ++ '-' :: 'L' :: decimal e.toNat) ∧
    (s = 0 → (setLineFragment url s e).Fragment =
      url.Fragment ++ '-' :: 'L' :: decimal e.toNat) := by
  obtain ⟨_, hes, _⟩ := splitFilename_bounds text fallback name s e h
  refine ⟨hes he, fun hs => (setLineFragment_Fragment url s e).2.1 hs he, ?_⟩
  intro hs
  subst hs
  simp [setLineFragment, he, fmtInt_pos e he]

theorem splitFilename_end_start_witness :
    splitFilename "a/b.txt:3-7".toList false = .ok ("a/b.txt".toList, 3, 7) ∧
    (setLineFragment githubRoot 3 7).Fragment = "L3-L7".toList :=
  ⟨by decide,
    (splitFilename_end_start "a/b.txt:3-7".toList false "a/b.txt".toList 3 7 githubRoot
      (by decide) (by decide)).2.1 (by decide)⟩

/-! ## Lemmas: the caches of the work tree and of the base URL -/

theorem dot_or_self_ne_nil (out : GoString) : (if out = [] then ['.'] else out) ≠ [] := by
  by_cases h : out = []
  · simp [h]
  · simp [h]

theorem Clean_ne_nil (p : GoString) : path.Clean p ≠ [] := by
  unfold path.Clean
  exact dot_or_self_ne_nil _

theorem Abs_ne_nil (getwd : Except GoString GoString) (p v : GoString) (hp : p ≠ [])
    (h : path.Abs getwd p = .ok v) : v ≠ [] := by
  unfold path.Abs at h
  split at h
  · rw [← Except.ok.inj h]; exact Clean_ne_nil p
  · split at h
    · cases h
    · next wd =>
      rw [← Except.ok.inj h]
      unfold path.Join
      have hes : List.dropWhile (fun e : GoString => e.isEmpty) [wd, p] ≠ [] := by
        cases wd with
        | nil =>
          cases p with
          | nil => exact absurd rfl hp
          | cons c t => simp [List.dropWhile]
        | cons c t => simp [List.dropWhile]
      simp only [hes, if_false]
      exact Clean_ne_nil _

theorem Cache.set_same {α : Type} (cache : Cache α) (key : GoString) (v : α) :
    cache.set key v key = some v := by
  simp [Cache.set]

/-- After a call of `worktree` that returns a root, the cache holds that root
under the key of the call. -/
theorem worktree_stores (env : Env) (g : git) (key v : GoString)
    (h : (g.worktree env key).out = .ok v) :
    (g.worktree env key).git.worktreeCache key = some v := by
  unfold git.worktree at h ⊢
  split
  · next dir hdir =>
    rw [hdir] at h
    simp only at h
    rw [← Outcome.ok.inj h]
    exact hdir
  · next hmiss =>
    rw [hmiss] at h
    simp only at h ⊢
    have hstore : ∀ r : GoString, r ≠ [] →
        deferStore g.worktreeCache key r key = some r := by
      intro r hr
      simp [deferStore, hr, Cache.set_same]
    split
    · next e he => rw [he] at h; cases h
    · next gitDir hg =>
      rw [hg] at h
      simp only at h ⊢
      split
      · next e he =>
        rw [he] at h
        simp only at h
        rw [← Outcome.ok.inj h]
        exact hstore _ (Clean_ne_nil _)
      · next workTree hw =>
        rw [hw] at h
        simp only at h ⊢
        split
        · next hempty =>
          rw [if_pos hempty] at h
          rw [← Outcome.ok.inj h]
          exact hstore _ (Clean_ne_nil _)
        · next hne =>
          rw [if_neg hne] at h
          split
          · next e he => rw [he] at h; cases h
          · next abs ha =>
            rw [ha] at h
            simp only at h
            rw [← Outcome.ok.inj h]
            apply hstore
            apply Abs_ne_nil _ _ _ _ ha
            unfold path.Join
            have hes : List.dropWhile (fun e : GoString => e.isEmpty)
                [strings.TrimSpace gitDir, strings.TrimSpace workTree] ≠ [] := by
              cases strings.TrimSpace gitDir with
              | nil =>
                cases hw2 : strings.TrimSpace workTree with
                | nil => exact absurd hw2 hne
                | cons c t => simp [List.dropWhile]
              | cons c t => simp [List.dropWhile]
            simp only [hes, if_false]
            exact Clean_ne_nil _

/-- After a call of `baseURL` that returns a URL, the cache holds that URL
under the key of the call. -/
theorem baseURL_stores (env : Env) (g : git) (key : GoString) (u : URL)
    (h : (g.baseURL env key).out = .ok u) :
    (g.baseURL env key).git.baseURLCache key = some u := by
  unfold git.baseURL at h ⊢
  split
  · next v hv =>
    rw [hv] at h
    simp only at h
    rw [← Outcome.ok.inj h]
    exact hv
  · next hmiss =>
    rw [hmiss] at h
    simp only at h ⊢
    split
    · next e he => rw [he] at h; cases h
    · next origin ho =>
      rw [ho] at h
      simp only at h ⊢
      split
      · next hc => rw [if_pos hc] at h; cases h
      · next hc =>
        rw [if_neg hc] at h
        split
        · next hp =>
          rw [if_pos hp] at h
          split
          · next f hf => rw [hf] at h; cases h
          · next repo hr =>
            rw [hr] at h
            simp only at h
            rw [← Outcome.ok.inj h]
            exact Cache.set_same _ _ _
        · next hp =>
          rw [if_neg hp] at h
          split
          · next hp2 =>
            rw [if_pos hp2] at h
            split
            · next f hf => rw [hf] at h; cases h
            · next repo hr =>
              rw [hr] at h
              simp only at h
              rw [← Outcome.ok.inj h]
              exact Cache.set_same _ _ _
          · next hp2 => rw [if_neg hp2] at h; cases h

/-- A call of `worktree` that does not return a root leaves the caches as they
were. -/
theorem worktree_fail_git (env : Env) (g : git) (key : GoString)
    (h : ∀ v, (g.worktree env key).out ≠ .ok v) : (g.worktree env key).git = g := by
  unfold git.worktree at h ⊢
  have hstore : ({ g with worktreeCache := deferStore g.worktreeCache key [] } : git) = g := by
    simp [deferStore]
  split
  · rfl
  · next hmiss =>
    rw [hmiss] at h
    simp only at h ⊢
    split
    · exact hstore
    · next gitDir hg =>
      rw [hg] at h
      simp only at h ⊢
      split
      · next e he =>
        rw [he] at h
        exact absurd rfl (h _)
      · next workTree hw =>
        rw [hw] at h
        simp only at h ⊢
        split
        · next hempty =>
          rw [if_pos hempty] at h
          exact absurd rfl (h _)
        · next hne =>
          rw [if_neg hne] at h
          split
          · exact hstore
          · next abs ha =>
            rw [ha] at h
            exact absurd rfl (h _)

/-- A call of `baseURL` that does not return a URL leaves the caches as they
were. -/
theorem baseURL_fail_git (env : Env) (g : git) (key : GoString)
    (h : ∀ u, (g.baseURL env key).out ≠ .ok u) : (g.baseURL env key).git = g := by
  unfold git.baseURL at h ⊢
  split
  · rfl
  · next hmiss =>
    rw [hmiss] at h
    simp only at h ⊢
    split
    · rfl
    · next origin ho =>
      rw [ho] at h
      simp only at h ⊢
      split
      · rfl
      · next hc =>
        rw [if_neg hc] at h
        split
        · next hp =>
          rw [if_pos hp] at h
          split
          · rfl
          · next repo hr =>
            rw [hr] at h
            exact absurd rfl (h _)
        · next hp =>
          rw [if_neg hp] at h
          split
          · next hp2 =>
            rw [if_pos hp2] at h
            split
            · rfl
            · next repo hr =>
              rw [hr] at h
              exact absurd rfl (h _)
          · rfl

/-- An origin in the SSH form without a colon makes `baseURL` panic on
`strings.SplitN(origin, ":", 2)[1]`. -/
theorem baseURL_ssh_no_colon (env : Env) (g : git) (cwd raw : GoString)
    (hmiss : g.baseURLCache cwd = none) (hexec : env.exec (originQuery cwd) = .ok raw)
    (hc : strings.Contains (strings.TrimSuffix (strings.TrimSpace raw) ".git".toList)
      "github.com".toList = true)
    (hp : strings.HasPrefix (strings.TrimSuffix (strings.TrimSpace raw) ".git".toList)
      "git@".toList = true)
    (hcolon : ':' ∉ strings.TrimSuffix (strings.TrimSpace raw) ".git".toList) :
    (g.baseURL env cwd).out = .panic (.indexOutOfRange 1 1) := by
  have hsplit : strings.SplitN (strings.TrimSuffix (strings.TrimSpace raw) ".git".toList)
      [':'] 2 = [strings.TrimSuffix (strings.TrimSpace raw) ".git".toList] := by
    have h2 : ((2 : Int).toNat - 1) = 0 + 1 := rfl
    simp only [strings.SplitN, List.isEmpty_cons, Bool.false_eq_true, if_false, h2,
      strings.splitLoop, strings.Cut_single_none ':' _ hcolon]
    rfl
  simp only [git.baseURL, hmiss, hexec, hc, hp, hsplit, index]
  rfl

/-! ## The claims on the caches and on malformed origins -/

/-- C14: the code does not do what the claim says.  An origin that starts with
`git@` and has no colon, and an origin that starts with `https` and contains
`github.com` but not `github.com/`, make `baseURL` panic with an index out of
range instead of returning an error. -/
theorem baseURL_malformed_panics :
    (Git.baseURL ⟨fun _ => .ok "git@github.com\n".toList, .ok ['/']⟩ "/repo".toList).out =
      .panic (.indexOutOfRange 1 1) ∧
    (Git.baseURL ⟨fun _ => .ok "https://github.com\n".toList, .ok ['/']⟩ "/repo".toList).out =
      .panic (.indexOutOfRange 1 1) ∧
    (Git.baseURL ⟨fun _ => .ok "https://github.company.com/org/repo.git\n".toList, .ok ['/']⟩
      "/repo".toList).out = .panic (.indexOutOfRange 1 1) :=
  ⟨by decide, by decide, by decide⟩

/-- C15: for every key and every state of the caches, after a call of `worktree`
(respectively `baseURL`) that returns a result, a second call with the same key
returns the same result and issues no query; and a call that returns an error
leaves the three caches as they were. -/
theorem worktree_baseURL_cached (env : Env) (g : git) (key : GoString) :
    (∀ v, (g.worktree env key).out = .ok v →
      ((g.worktree env key).git.worktree env key).out = .ok v ∧
      ((g.worktree env key).git.worktree env key).trace = []) ∧
    (∀ u, (g.baseURL env key).out = .ok u →
      ((g.baseURL env key).git.baseURL env key).out = .ok u ∧
      ((g.baseURL env key).git.baseURL env key).trace = []) ∧
    (∀ e, (g.worktree env key).out = .err e → (g.worktree env key).git = g) ∧
    (∀ e, (g.baseURL env key).out = .err e → (g.baseURL env key).git = g) := by
  refine ⟨?_, ?_, ?_, ?_⟩
  · intro v h
    have hs := worktree_stores env g key v h
    generalize (g.worktree env key).git = g1 at hs
    simp [git.worktree, hs]
  · intro u h
    have hs := baseURL_stores env g key u h
    generalize (g.baseURL env key).git = g1 at hs
    simp [git.baseURL, hs]
  · intro e h
    apply worktree_fail_git
    intro v hv
    rw [h] at hv
    cases hv
  · intro e h
    apply baseURL_fail_git
    intro u hu
    rw [h] at hu
    cases hu

theorem worktree_baseURL_cached_witness :
    (Git.worktree sampleEnv "/home/user/link2code".toList).out =
      .ok "/home/user/link2code".toList ∧
    (((Git.worktree sampleEnv "/home/user/link2code".toList).git.worktree sampleEnv
      "/home/user/link2code".toList).out = .ok "/home/user/link2code".toList ∧
    ((Git.worktree sampleEnv "/home/user/link2code".toList).git.worktree sampleEnv
      "/home/user/link2code".toList).trace = []) :=
  ⟨by decide,
    (worktree_baseURL_cached sampleEnv Git "/home/user/link2code".toList).1
      "/home/user/link2code".toList (by decide)⟩

/-! ## Lemmas: the listing of the commits on no remote -/

namespace strings

theorem dropWhile_append_head (f : Char → Bool) (y : GoString)
    (hy : ∀ d ∈ y.head?, f d = false) (hne : y ≠ []) :
    ∀ x : GoString, (x ++ y).dropWhile f = x.dropWhile f ++ y := by
  intro x
  induction x with
  | nil =>
    cases y with
    | nil => exact absurd rfl hne
    | cons d t =>
      have : f d = false := hy d (by simp)
      simp [List.dropWhile, this]
  | cons c x ih =>
    by_cases hc : f c = true
    · simp [List.dropWhile, hc, ih]
    · simp [List.dropWhile, hc]

theorem rdropWhile_append_last (f : Char → Bool) (y z : GoString)
    (hy : ∀ d ∈ y.getLast?, f d = false) (hne : y ≠ []) :
    (y ++ z).rdropWhile f = y ++ z.rdropWhile f := by
  have h1 : ∀ d ∈ y.reverse.head?, f d = false := by
    intro d hd
    rw [List.head?_reverse] at hd
    exact hy d hd
  rw [List.rdropWhile, List.reverse_append,
    dropWhile_append_head f y.reverse h1 (by simpa using hne), List.reverse_append,
    List.reverse_reverse]
  rfl

theorem getLast_dropWhile (f : Char → Bool) :
    ∀ x : GoString, x.dropWhile f = [] ∨ (x.dropWhile f).getLast? = x.getLast? := by
  intro x
  induction x with
  | nil => left; rfl
  | cons c x ih =>
    by_cases hc : f c = true
    · rcases ih with h | h
      · left; simp [List.dropWhile, hc, h]
      · by_cases hx : x = []
        · left; subst hx; simp [List.dropWhile, hc]
        · right
          simp only [List.dropWhile, hc]
          rw [h, List.getLast?_cons]
          cases hl : x.getLast? with
          | none => exact absurd (List.getLast?_eq_none_iff.1 hl) hx
          | some d => rfl
    · right; simp [List.dropWhile, hc]

/-- The last part of a split at a one-character separator: the text after the
last separator. -/
theorem splitLoop_getLast (c : Char) (b : GoString) (hb : c ∉ b) :
    ∀ (n : Nat) (pre : GoString), (pre = [] ∨ pre.getLast? = some c) → pre.length ≤ n →
      (splitLoop [c] n (pre ++ b)).getLast? = some b := by
  intro n
  induction n with
  | zero =>
    intro pre _ hlen
    have : pre = [] := List.length_eq_zero.1 (by omega)
    subst this
    simp [splitLoop]
  | succ n ih =>
    intro pre hpre hlen
    rcases hpre with rfl | hlast
    · rw [List.nil_append, splitLoop_none c _ b hb]; rfl
    · have hmem : c ∈ pre := List.mem_of_getLast?_eq_some hlast
      cases hc : Cut [c] pre with
      | none => exact absurd hmem (Cut_single_none_mem c pre hc)
      | some xr =>
        obtain ⟨x, r⟩ := xr
        obtain ⟨hx, hcx⟩ := Cut_single_spec c pre x r hc
        have hr : r = [] ∨ r.getLast? = some c := by
          cases r with
          | nil => left; rfl
          | cons d r2 =>
            right
            rw [hx, List.getLast?_append_of_ne_nil _ (by simp), List.getLast?_cons_cons] at hlast
            exact hlast
        have hcut : Cut [c] (pre ++ b) = some (x, r ++ b) := by
          rw [hx, List.append_assoc, List.cons_append]
          exact Cut_single_some c (r ++ b) x hcx
        have hlen2 : r.length ≤ n := by
          have : pre.length = x.length + (r.length + 1) := by rw [hx]; simp
          omega
        rw [splitLoop, hcut]
        simp only
        have htail := ih r hr hlen2
        rw [List.getLast?_cons, htail]
        rfl

theorem index_last {α : Type} (xs : List α) (x : α) (h : xs.getLast? = some x) :
    index xs (xs.length - 1) = .ok x := by
  have hne : xs ≠ [] := by
    rintro rfl
    simp at h
  rw [List.getLast?_eq_getElem?] at h
  simp [index, h]

/-- The first field of a text that starts with a run without white space. -/
theorem Fields_first (rev t : GoString) (hrev : rev ≠ [])
    (hrevc : ∀ c ∈ rev, isSpace c = false)
    (ht : ∀ d ∈ t.head?, isSpace d = true) :
    index (Fields (rev ++ t)) 0 = .ok rev := by
  have hnot : ∀ x ∈ rev, ¬ (isSpace x = true) := by
    intro x hx
    rw [hrevc x hx]
    exact Bool.false_ne_true
  have hemp : rev.isEmpty = false := by
    cases rev with
    | nil => exact absurd rfl hrev
    | cons c r => rfl
  cases t with
  | nil =>
    rw [List.append_nil, Fields, List.splitOnP_eq_single isSpace rev hnot]
    simp [index, hemp]
  | cons d t =>
    have hd : isSpace d = true := ht d (by simp)
    rw [Fields, List.splitOnP_first isSpace rev hnot d hd t]
    simp [index, hemp]

end strings

theorem lines_end (older : List GoString) :
    (older.map (fun l => l ++ ['\n'])).flatten = [] ∨
      ((older.map (fun l => l ++ ['\n'])).flatten).getLast? = some '\n' := by
  induction older with
  | nil => left; rfl
  | cons l ls ih =>
    right
    rw [List.map_cons, List.flatten_cons]
    rcases ih with h | h
    · rw [h, List.append_nil, List.getLast?_concat]
    · have hne : (ls.map (fun l => l ++ ['\n'])).flatten ≠ [] := by
        intro h0
        rw [h0] at h
        cases h
      rw [List.getLast?_append_of_ne_nil _ hne, h]

/-- The selector for a listing whose last line is `<rev> <msg>`. -/
theorem selectorOf_listing (pre rev msg : GoString)
    (hpre : pre = [] ∨ pre.getLast? = some '\n') (hrev : rev ≠ [])
    (hrevc : ∀ c ∈ rev, strings.isSpace c = false) (hmsg : '\n' ∉ msg) :
    selectorOf (pre ++ (rev ++ ' ' :: msg ++ ['\n'])) = .ok (rev ++ "~1".toList) := by
  have hnl : strings.isSpace '\n' = true := by decide
  have hsp : strings.isSpace ' ' = true := by decide
  -- the trimmed listing
  have hhead : ∀ d ∈ (rev ++ ' ' :: msg ++ ['\n']).head?, strings.isSpace d = false := by
    intro d hd
    cases rev with
    | nil => exact absurd rfl hrev
    | cons c r =>
      have : d = c := by simpa using hd.symm
      subst this
      exact hrevc d (by simp)
  have hdrop := strings.dropWhile_append_head strings.isSpace (rev ++ ' ' :: msg ++ ['\n'])
    hhead (by simp [hrev]) pre
  have hpre2 : pre.dropWhile strings.isSpace = [] ∨
      (pre.dropWhile strings.isSpace).getLast? = some '\n' := by
    rcases strings.getLast_dropWhile strings.isSpace pre with h | h
    · left; exact h
    · rcases hpre with h0 | h0
      · left; rw [h0]; rfl
      · right; rw [h, h0]
  generalize pre.dropWhile strings.isSpace = pre2 at hdrop hpre2
  have hlast : ∀ d ∈ (pre2 ++ rev).getLast?, strings.isSpace d = false := by
    intro d hd
    rw [List.getLast?_append_of_ne_nil _ hrev] at hd
    exact hrevc d (List.mem_of_getLast?_eq_some hd)
  have htrim : strings.TrimSpace (pre ++ (rev ++ ' ' :: msg ++ ['\n'])) =
      pre2 ++ (rev ++ (' ' :: msg).rdropWhile strings.isSpace) := by
    rw [strings.TrimSpace, hdrop]
    have e : pre2 ++ (rev ++ ' ' :: msg ++ ['\n']) = (pre2 ++ rev) ++ ((' ' :: msg) ++ ['\n']) := by
      simp
    rw [e, strings.rdropWhile_append_last strings.isSpace _ _ hlast (by simp [hrev]),
      List.rdropWhile_concat_pos _ _ _ hnl, List.append_assoc]
  have hpref : (' ' :: msg).rdropWhile strings.isSpace <+: ' ' :: msg :=
    List.rdropWhile_prefix _ _
  generalize (' ' :: msg).rdropWhile strings.isSpace = t at htrim hpref
  have htn : '\n' ∉ rev ++ t := by
    intro hm
    rcases List.mem_append.1 hm with h | h
    · have := hrevc _ h
      rw [hnl] at this
      cases this
    · have h2 := hpref.subset h
      rcases List.mem_cons.1 h2 with h3 | h3
      · exact absurd h3 (by decide)
      · exact hmsg h3
  have hth : ∀ d ∈ t.head?, strings.isSpace d = true := by
    intro d hd
    obtain ⟨r, hr⟩ := hpref
    cases t with
    | nil => simp at hd
    | cons x t2 =>
      simp only [List.cons_append, List.cons.injEq] at hr
      have : d = x := by simpa using hd.symm
      rw [this, hr.1]
      exact hsp
  -- the last line and its first field
  have hsplit : (strings.Split (pre2 ++ (rev ++ t)) ['\n']).getLast? = some (rev ++ t) := by
    simp only [strings.Split, List.isEmpty_cons, Bool.false_eq_true, if_false]
    exact strings.splitLoop_getLast '\n' (rev ++ t) htn _ pre2 hpre2
      (by simp only [List.length_append]; omega)
  have hlen : (strings.Split (pre2 ++ (rev ++ t)) ['\n']).length > 0 := by
    apply List.length_pos.2
    intro h0
    rw [h0] at hsplit
    cases hsplit
  simp only [selectorOf, htrim, hlen, if_true, strings.index_last _ _ hsplit,
    bind, Except.bind, strings.Fields_first rev t hrev hrevc hth]
  rfl

/-- C13: when the listing of the commits on no remote has `n >= 1` lines, the
last (oldest) one of the form `<rev> <msg>` with `rev` non-empty and without
white space, the selector passed to the rev-list query is `<rev>~1`, the parent
of the oldest commit on no remote, and the returned revision is the output of
that query trimmed of white space. -/
theorem upstreamRevision_oldest_parent (env : Env) (g : git) (cwd : GoString)
    (older : List GoString) (rev msg out : GoString)
    (hmiss : g.revCache cwd = none) (hrev : rev ≠ [])
    (hrevc : ∀ c ∈ rev, strings.isSpace c = false) (hmsg : '\n' ∉ msg)
    (hlist : env.exec (localOnlyQuery cwd) =
      .ok ((older.map (fun l => l ++ ['\n'])).flatten ++ (rev ++ ' ' :: msg ++ ['\n'])))
    (hrl : env.exec (revListQuery cwd (rev ++ "~1".toList)) = .ok out) :
    (g.upstreamRevision env cwd).out = .ok (strings.TrimSpace out) ∧
    (g.upstreamRevision env cwd).trace =
      [localOnlyQuery cwd, revListQuery cwd (rev ++ "~1".toList)] := by
  have hsel := selectorOf_listing _ rev msg (lines_end older) hrev hrevc hmsg
  simp only [git.upstreamRevision, hmiss, hlist, hsel, hrl]
  exact ⟨trivial, trivial⟩

theorem upstreamRevision_oldest_parent_witness :
    (Git.upstreamRevision sampleEnv "/repo".toList).out = .ok "0123456789".toList ∧
    (Git.upstreamRevision sampleEnv "/repo".toList).trace =
      [localOnlyQuery "/repo".toList, revListQuery "/repo".toList "2222222~1".toList] :=
  upstreamRevision_oldest_parent sampleEnv Git "/repo".toList ["1111111 newer".toList]
    "2222222".toList "older".toList "0123456789\n".toList rfl (by decide) (by decide)
    (by decide) (by decide) (by decide)

/-! ## Lemmas: the two modes on a path without colon -/

theorem lineMarked_of_no_colon : ∀ p : GoString, ':' ∉ p → lineMarked p = false := by
  intro p
  induction p with
  | nil => intro _; rfl
  | cons c t ih =>
    intro h
    have hc : c ≠ ':' := fun e => h (by simp [e])
    have ht : ':' ∉ t := fun e => h (by simp [e])
    rw [lineMarked, ih ht, Bool.or_false]
    cases t with
    | nil => rfl
    | cons d t2 => simp [startsMark, hc]

/-- In colon-tolerant mode, a suffix that the anchored pattern accepts from its
colon to the end of the text is the match when no match starts in the path
before it. -/
theorem find_fallback_unmarked (p u : GoString) (hp : lineMarked p = false)
    (hrun : Regex.run fallbackFilenameRe (':' :: u) some = some []) :
    Regex.FindStringIndex fallbackFilenameRe (p ++ ':' :: u) =
      some (p.length, p.length + (1 + u.length)) := by
  have hskip := Regex.findFrom_skip fallbackFilenameRe (':' :: u) p 0 (fun a b hab hb =>
    Regex.matchLen_none true _
      (startsMark_suffix hp (by simp [startsLineChar, Regex.colon_not_lineChar]) a b hab hb))
  rw [Regex.FindStringIndex, hskip, Regex.findFrom, Regex.matchLen, hrun]
  simp only [Option.map, List.length_cons, List.length_nil]
  congr 3 <;> omega

theorem fallback_run_one (cs : GoString) (hcs : cs ≠ [])
    (hall : ∀ c ∈ cs, isLineChar c = true) :
    Regex.run fallbackFilenameRe (':' :: cs) some = some [] := by
  obtain ⟨n, hn⟩ : ∃ n, (':' :: cs).length + 1 = n + 1 := ⟨cs.length + 1, by simp⟩
  simp only [fallbackFilenameRe, Regex.run]
  rw [hn]
  exact Regex.fallback_loop_one n _ hcs hall

theorem fallback_run_two (cs ms : GoString) (hcs : cs ≠ [])
    (hall : ∀ c ∈ cs, isLineChar c = true) (hms : ms ≠ [])
    (hall2 : ∀ c ∈ ms, isLineChar c = true) :
    Regex.run fallbackFilenameRe (':' :: (cs ++ ':' :: ms)) some = some [] := by
  obtain ⟨n, hn⟩ : ∃ n, (':' :: (cs ++ ':' :: ms)).length + 1 = n + 2 :=
    ⟨(cs ++ ':' :: ms).length, by simp⟩
  simp only [fallbackFilenameRe, Regex.run]
  rw [hn]
  exact Regex.fallback_loop_two n _ _ hcs hall hms hall2

/-- The result for a located suffix `:N`. -/
theorem located_line (fallback : Bool) (p : GoString) (N : Nat) (hN : N < 2 ^ 63)
    (hfind : Regex.FindStringIndex (if fallback then fallbackFilenameRe else filenameRe)
      (p ++ ':' :: (decimal N ++ [])) = some (p.length, p.length + (1 + (decimal N).length))) :
    splitFilename (p ++ ':' :: (decimal N ++ [])) fallback = .ok (p, (N : Int), 0) := by
  have hd := decimal_isDigit N
  rw [splitFilename_located fallback p (decimal N) [] hfind
    (fun d t h => head_ne_colon hd [] d t (by simpa using h) (decimal_ne_nil N))]
  rw [strings.Count_none ':' _ (digits_no_colon hd), strings.Count_none '-' _ (digits_no_hyphen hd)]
  simp only [Nat.zero_ne_one, if_false, atoiOrPanic_decimal N hN]
  rfl

/-- The result for a located suffix `:N-M`. -/
theorem located_range (fallback : Bool) (p : GoString) (N M : Nat) (hN : N < 2 ^ 63)
    (hM : M < 2 ^ 63)
    (hfind : Regex.FindStringIndex (if fallback then fallbackFilenameRe else filenameRe)
      (p ++ ':' :: ((decimal N ++ '-' :: decimal M) ++ [])) =
        some (p.length, p.length + (1 + (decimal N ++ '-' :: decimal M).length))) :
    splitFilename (p ++ ':' :: ((decimal N ++ '-' :: decimal M) ++ [])) fallback =
      .ok (p, (N : Int), (M : Int)) := by
  have hdN := decimal_isDigit N
  have hdM := decimal_isDigit M
  have hcolon : ':' ∉ decimal N ++ '-' :: decimal M := by
    intro hc
    rcases List.mem_append.1 hc with h | h
    · exact digits_no_colon hdN h
    · rcases List.mem_cons.1 h with h | h
      · exact absurd h (by decide)
      · exact digits_no_colon hdM h
  rw [splitFilename_located fallback p _ [] hfind
    (fun d t h => head_ne_colon hdN _ d t h (decimal_ne_nil N))]
  rw [strings.Count_none ':' _ hcolon,
    strings.Count_one '-' _ _ (digits_no_hyphen hdN) (digits_no_hyphen hdM),
    strings.Split_one '-' _ _ (digits_no_hyphen hdN) (digits_no_hyphen hdM)]
  simp only [Nat.zero_ne_one, if_false, if_true, index, List.getElem?_cons_zero,
    List.getElem?_cons_succ]
  show (atoiOrPanic (decimal N) >>= fun start =>
    atoiOrPanic (decimal M) >>= fun end_ => pure (p, start, end_)) = _
  rw [atoiOrPanic_decimal N hN, atoiOrPanic_decimal M hM]
  rfl

/-- The result for a located suffix `:N:M`. -/
theorem located_column (fallback : Bool) (p M : GoString) (N : Nat) (hN : N < 2 ^ 63)
    (hMd : ∀ c ∈ M, c.isDigit = true)
    (hfind : Regex.FindStringIndex (if fallback then fallbackFilenameRe else filenameRe)
      (p ++ ':' :: ((decimal N ++ ':' :: M) ++ [])) =
        some (p.length, p.length + (1 + (decimal N ++ ':' :: M).length))) :
    splitFilename (p ++ ':' :: ((decimal N ++ ':' :: M) ++ [])) fallback =
      .ok (p, (N : Int), 0) := by
  have hdN := decimal_isDigit N
  rw [splitFilename_located fallback p _ [] hfind
    (fun d t h => head_ne_colon hdN _ d t h (decimal_ne_nil N))]
  rw [strings.Count_one ':' _ _ (digits_no_colon hdN) (digits_no_colon hMd),
    strings.Split_one ':' _ _ (digits_no_colon hdN) (digits_no_colon hMd)]
  simp only [if_true, index, List.getElem?_cons_zero]
  show (atoiOrPanic (decimal N) >>= fun start => pure (p, start, 0)) = _
  rw [atoiOrPanic_decimal N hN]
  rfl

theorem unmarked_result (token : GoString) (flag : Bool) (h : lineMarked token = false) :
    splitFilename token flag = .ok (token, 0, 0) := by
  simp only [splitFilename, find_unmarked flag token h]

theorem range_lineChar (N M : Nat) :
    ∀ c ∈ decimal N ++ '-' :: decimal M, isLineChar c = true := by
  intro c hc
  rcases List.mem_append.1 hc with h | h
  · exact digits_lineChar (decimal_isDigit N) c h
  · rcases List.mem_cons.1 h with rfl | h
    · decide
    · exact digits_lineChar (decimal_isDigit M) c h

/-- C17: the two modes agree on the documented shapes when the path has no
colon: for a path `p` without `:` and natural numbers `N`, `M` in the range of
`int`, `splitFilename t false = splitFilename t true` for `t` among `p`,
`p:N`, `p:N-M` and `p:N:M`. -/
theorem splitFilename_modes_agree (p : GoString) (N M : Nat) (hp : ':' ∉ p)
    (hN : N < 2 ^ 63) (hM : M < 2 ^ 63) :
    splitFilename p false = splitFilename p true ∧
    splitFilename (p ++ [':'] ++ decimal N) false =
      splitFilename (p ++ [':'] ++ decimal N) true ∧
    splitFilename (p ++ [':'] ++ decimal N ++ ['-'] ++ decimal M) false =
      splitFilename (p ++ [':'] ++ decimal N ++ ['-'] ++ decimal M) true ∧
    splitFilename (p ++ [':'] ++ decimal N ++ [':'] ++ decimal M) false =
      splitFilename (p ++ [':'] ++ decimal N ++ [':'] ++ decimal M) true := by
  have hmark := lineMarked_of_no_colon p hp
  have hdN := decimal_isDigit N
  have hdM := decimal_isDigit M
  refine ⟨?_, ?_, ?_, ?_⟩
  · rw [unmarked_result p false hmark, unmarked_result p true hmark]
  · have e : p ++ [':'] ++ decimal N = p ++ ':' :: (decimal N ++ []) := by simp
    have h1 := find_default_one p (decimal N) [] hmark (decimal_ne_nil N)
      (digits_lineChar hdN) rfl rfl
    have h2 := find_fallback_unmarked p (decimal N ++ []) hmark
      (by rw [List.append_nil]; exact fallback_run_one _ (decimal_ne_nil N) (digits_lineChar hdN))
    rw [List.append_nil] at h2
    rw [e, located_line false p N hN h1, located_line true p N hN (by rw [List.append_nil]; exact h2)]
  · have e : p ++ [':'] ++ decimal N ++ ['-'] ++ decimal M =
        p ++ ':' :: ((decimal N ++ '-' :: decimal M) ++ []) := by simp
    have h1 := find_default_one p (decimal N ++ '-' :: decimal M) [] hmark (by simp)
      (range_lineChar N M) rfl rfl
    have h2 := find_fallback_unmarked p (decimal N ++ '-' :: decimal M) hmark
      (fallback_run_one _ (by simp) (range_lineChar N M))
    rw [e, located_range false p N M hN hM h1,
      located_range true p N M hN hM (by rw [List.append_nil]; exact h2)]
  · have e : p ++ [':'] ++ decimal N ++ [':'] ++ decimal M =
        p ++ ':' :: ((decimal N ++ ':' :: decimal M) ++ []) := by simp
    have h1 := find_default_two p (decimal N) (decimal M) [] hmark (decimal_ne_nil N)
      (digits_lineChar hdN) (decimal_ne_nil M) (digits_lineChar hdM) rfl
    have h2 := find_fallback_unmarked p (decimal N ++ ':' :: decimal M) hmark
      (fallback_run_two _ _ (decimal_ne_nil N) (digits_lineChar hdN) (decimal_ne_nil M)
        (digits_lineChar hdM))
    rw [e, located_column false p (decimal M) N hN hdM (by simpa using h1),
      located_column true p (decimal M) N hN hdM (by rw [List.append_nil]; exact h2)]

theorem splitFilename_modes_agree_witness :
    splitFilename ("a/b2.txt".toList ++ [':'] ++ decimal 12 ++ ['-'] ++ decimal 34) false =
      splitFilename ("a/b2.txt".toList ++ [':'] ++ decimal 12 ++ ['-'] ++ decimal 34) true :=
  (splitFilename_modes_agree "a/b2.txt".toList 12 34 (by decide) (by decide) (by decide)).2.2.1

/-! ## Lemmas: suffixes of several numbers in colon-tolerant mode -/

theorem intercalate_cons_cons (c : Char) (g g2 : GoString) (rest : List GoString) :
    List.intercalate [c] (g :: g2 :: rest) = g ++ c :: List.intercalate [c] (g2 :: rest) := by
  simp [List.intercalate, List.intersperse]

theorem intercalate_single (c : Char) (g : GoString) : List.intercalate [c] [g] = g := by
  simp [List.intercalate, List.intersperse]

theorem flatten_colon_groups (g : GoString) (gs : List GoString) :
    ((g :: gs).map (fun x => ':' :: x)).flatten = ':' :: List.intercalate [':'] (g :: gs) := by
  induction gs generalizing g with
  | nil => simp [intercalate_single]
  | cons g2 rest ih =>
    rw [List.map_cons, List.flatten_cons, ih g2, intercalate_cons_cons]
    rfl

theorem length_intercalate (c : Char) (g : GoString) (gs : List GoString) :
    (g :: gs).length ≤ (List.intercalate [c] (g :: gs)).length + 1 := by
  induction gs generalizing g with
  | nil => simp
  | cons g2 rest ih =>
    rw [intercalate_cons_cons]
    have := ih g2
    simp only [List.length_cons, List.length_append] at this ⊢
    omega

namespace strings

/-- Splitting an intercalation at its separator gives the parts back. -/
theorem splitLoop_intercalate (c : Char) :
    ∀ (gs : List GoString) (g : GoString) (n : Nat), (∀ x ∈ g :: gs, c ∉ x) →
      gs.length ≤ n → splitLoop [c] n (List.intercalate [c] (g :: gs)) = g :: gs := by
  intro gs
  induction gs with
  | nil =>
    intro g n h _
    rw [intercalate_single, splitLoop_none c n g (h g (by simp))]
  | cons g2 rest ih =>
    intro g n h hn
    cases n with
    | zero => simp at hn
    | succ n =>
      rw [intercalate_cons_cons, splitLoop,
        Cut_single_some c _ g (h g (by simp))]
      simp only
      rw [ih g2 n (fun x hx => h x (by simp [List.mem_cons.1 hx])) (by simpa using hn)]

theorem Count_intercalate (c : Char) (g : GoString) (gs : List GoString)
    (h : ∀ x ∈ g :: gs, c ∉ x) :
    Count (List.intercalate [c] (g :: gs)) [c] = gs.length := by
  have hlen := length_intercalate c g gs
  simp only [Count, List.isEmpty_cons, Bool.false_eq_true, if_false]
  rw [splitLoop_intercalate c gs g _ h (by simp only [List.length_cons] at hlen; omega)]
  simp

end strings

namespace Regex

/-- The anchored pattern on any number of groups that end the text. -/
theorem fallback_loop_groups :
    ∀ (gs : List GoString) (g : GoString) (n : Nat),
      (∀ x ∈ g :: gs, x ≠ [] ∧ ∀ c ∈ x, isLineChar c = true) → gs.length < n →
      plusLoop (fun s1 k1 => run lineGroup s1 k1) n (':' :: List.intercalate [':'] (g :: gs))
        (fun s1 => run eot s1 some) = some [] := by
  intro gs
  induction gs with
  | nil =>
    intro g n h hn
    cases n with
    | zero => simp at hn
    | succ n =>
      rw [intercalate_single]
      exact fallback_loop_one n g (h g (by simp)).1 (h g (by simp)).2
  | cons g2 rest ih =>
    intro g n h hn
    cases n with
    | zero => simp at hn
    | succ n =>
      rw [intercalate_cons_cons]
      apply plusLoop_round _ n _ (':' :: List.intercalate [':'] (g2 :: rest)) _ []
      · intro k1 hk1
        exact lineGroup_greedy k1 [] g _ (h g (by simp)).1 (h g (by simp)).2
          (by simp [startsLineChar, colon_not_lineChar]) hk1
      · simp only [List.length_cons, List.length_append]; omega
      · rw [ih g2 n (fun x hx => h x (by simp [List.mem_cons.1 hx])) (by simpa using hn)]
        rfl

end Regex

theorem fallback_run_groups (g : GoString) (gs : List GoString)
    (h : ∀ x ∈ g :: gs, x ≠ [] ∧ ∀ c ∈ x, isLineChar c = true) :
    Regex.run fallbackFilenameRe (':' :: List.intercalate [':'] (g :: gs)) some = some [] := by
  simp only [fallbackFilenameRe, Regex.run]
  apply Regex.fallback_loop_groups gs g _ h
  have := length_intercalate ':' g gs
  simp only [List.length_cons] at this ⊢
  omega

theorem parseDigits_none (c : Char) (hc : c.isDigit = false) :
    ∀ (s : GoString) (acc : Nat), c ∈ s → strconv.parseDigits s acc = none := by
  intro s
  induction s with
  | nil => intro _ h; simp at h
  | cons d t ih =>
    intro acc h
    rw [strconv.parseDigits]
    by_cases hd : d.isDigit = true
    · rw [if_pos hd]
      rcases List.mem_cons.1 h with rfl | h
      · rw [hd] at hc; cases hc
      · exact ih _ h
    · rw [if_neg hd]

/-- `Atoi` rejects digits followed by a colon. -/
theorem atoiOrPanic_colon (ds rest : GoString) (hne : ds ≠ [])
    (hd : ∀ c ∈ ds, c.isDigit = true) :
    atoiOrPanic (ds ++ ':' :: rest) = .error (.atoi (ds ++ ':' :: rest)) := by
  cases ds with
  | nil => exact absurd rfl hne
  | cons c t =>
    have hc := isDigit_facts (hd c (by simp))
    have hp : strconv.parseDigits (c :: t ++ ':' :: rest) 0 = none :=
      parseDigits_none ':' (by decide) _ 0 (by simp)
    have hp2 : strconv.parseDigits (c :: (t ++ ':' :: rest)) 0 = none := hp
    simp [atoiOrPanic, strconv.Atoi, hc.2.2.1, hc.2.2.2, hp2]

theorem mem_intercalate (sep c : Char) :
    ∀ (gs : List GoString) (g : GoString), c ∈ List.intercalate [sep] (g :: gs) →
      c = sep ∨ ∃ x ∈ g :: gs, c ∈ x := by
  intro gs
  induction gs with
  | nil =>
    intro g h
    rw [intercalate_single] at h
    exact Or.inr ⟨g, by simp, h⟩
  | cons g2 rest ih =>
    intro g h
    rw [intercalate_cons_cons] at h
    rcases List.mem_append.1 h with h | h
    · exact Or.inr ⟨g, by simp, h⟩
    · rcases List.mem_cons.1 h with h | h
      · exact Or.inl h
      · rcases ih g2 h with h | ⟨x, hx, hcx⟩
        · exact Or.inl h
        · exact Or.inr ⟨x, List.mem_cons_of_mem _ hx, hcx⟩

theorem decimals_spec (n1 : Nat) (ns : List Nat) :
    ∀ x ∈ decimal n1 :: ns.map decimal, x ≠ [] ∧ ∀ c ∈ x, c.isDigit = true := by
  intro x hx
  rcases List.mem_cons.1 hx with rfl | hx
  · exact ⟨decimal_ne_nil n1, decimal_isDigit n1⟩
  · obtain ⟨n, _, rfl⟩ := List.mem_map.1 hx
    exact ⟨decimal_ne_nil n, decimal_isDigit n⟩

/-! ## The claims on the two modes -/

/-- C18, as stated, fails: in colon-tolerant mode a suffix of three numbers is
matched by the anchored pattern, and the handler panics on it. -/
theorem splitFilename_three_numbers :
    splitFilename ("a".toList ++ [':'] ++ decimal 1 ++ [':'] ++ decimal 2 ++ [':'] ++ decimal 3)
      true = .error (.atoi "1:2:3".toList) := by
  decide

/-- C18, amended: in colon-tolerant mode, for a path `p` whose last character
is neither a digit nor `-` and natural numbers `n1 .. nk` written in decimal
(`n1` in the range of `int`), `splitFilename (p ++ ":" ++ n1 ++ ... ++ ":" ++ nk, true)`
returns `(p, n1, 0)` for `k <= 2`, and for `k >= 3` it panics with the error of
`strconv.Atoi` on `n1:...:nk`. -/
theorem splitFilename_colon_numbers (p : GoString) (n1 : Nat) (ns : List Nat)
    (hp : ∀ c ∈ p.getLast?, isLineChar c = false) (h1 : n1 < 2 ^ 63) :
    splitFilename (p ++ ((n1 :: ns).map (fun n => ':' :: decimal n)).flatten) true =
      if ns.length ≤ 1 then .ok (p, (n1 : Int), 0)
      else .error (.atoi (List.intercalate [':'] ((n1 :: ns).map decimal))) := by
  have hp2 : ∀ c, p.getLast? = some c → isLineChar c = false := fun c hc => hp c hc
  have hspec := decimals_spec n1 ns
  have hG : ∀ x ∈ decimal n1 :: ns.map decimal, x ≠ [] ∧ ∀ c ∈ x, isLineChar c = true :=
    fun x hx => ⟨(hspec x hx).1, digits_lineChar (hspec x hx).2⟩
  have hmap : (n1 :: ns).map (fun n => ':' :: decimal n) =
      (decimal n1 :: ns.map decimal).map (fun x => ':' :: x) := by
    simp [List.map_map]
  have hfind := find_fallback p _ hp2 (fallback_run_groups (decimal n1) (ns.map decimal) hG)
  rw [hmap, flatten_colon_groups, List.map_cons]
  match ns, hG, hspec, hfind with
  | [], _, _, hfind =>
    simp only [List.map_nil, intercalate_single] at hfind ⊢
    have e : p ++ ':' :: decimal n1 = p ++ ':' :: (decimal n1 ++ []) := by simp
    rw [e] at hfind ⊢
    rw [located_line true p n1 h1 (by rw [List.append_nil] at hfind ⊢; exact hfind)]
    rfl
  | [m], _, _, hfind =>
    simp only [List.map_cons, List.map_nil, intercalate_cons_cons, intercalate_single]
      at hfind ⊢
    have e : p ++ ':' :: (decimal n1 ++ ':' :: decimal m) =
        p ++ ':' :: ((decimal n1 ++ ':' :: decimal m) ++ []) := by simp
    rw [e] at hfind ⊢
    rw [located_column true p (decimal m) n1 h1 (decimal_isDigit m)
      (by rw [List.append_nil] at hfind ⊢; exact hfind)]
    rfl
  | m1 :: m2 :: rest, hG, hspec, hfind =>
    have hnot : ¬ (m1 :: m2 :: rest).length ≤ 1 := by simp
    rw [if_neg hnot]
    have hcolon : ∀ x ∈ decimal n1 :: (m1 :: m2 :: rest).map decimal, ':' ∉ x :=
      fun x hx => digits_no_colon (hspec x hx).2
    have hcount : strings.Count (List.intercalate [':']
        (decimal n1 :: (m1 :: m2 :: rest).map decimal)) [':'] ≠ 1 := by
      rw [strings.Count_intercalate ':' _ _ hcolon]
      simp
    have hhyphen : strings.Count (List.intercalate [':']
        (decimal n1 :: (m1 :: m2 :: rest).map decimal)) ['-'] ≠ 1 := by
      rw [strings.Count_none '-' _ (by
        intro hm
        rcases mem_intercalate ':' '-' _ _ hm with h | ⟨x, hx, hcx⟩
        · exact absurd h (by decide)
        · exact digits_no_hyphen (hspec x hx).2 hcx)]
      decide
    have e : p ++ ':' :: List.intercalate [':'] (decimal n1 :: (m1 :: m2 :: rest).map decimal) =
        p ++ ':' :: (List.intercalate [':'] (decimal n1 :: (m1 :: m2 :: rest).map decimal) ++ [])
        := by simp
    rw [e] at hfind ⊢
    rw [splitFilename_located true p _ [] (by rw [List.append_nil] at hfind ⊢; exact hfind) (by
      intro d t hd
      rw [List.map_cons, intercalate_cons_cons] at hd
      exact head_ne_colon (decimal_isDigit n1) _ d t hd (decimal_ne_nil n1))]
    rw [if_neg hcount, if_neg hhyphen]
    have hatoi := atoiOrPanic_colon (decimal n1)
      (List.intercalate [':'] ((m1 :: m2 :: rest).map decimal)) (decimal_ne_nil n1)
      (decimal_isDigit n1)
    simp only [List.map_cons, intercalate_cons_cons] at hatoi ⊢
    rw [hatoi]
    rfl

theorem splitFilename_colon_numbers_witness :
    splitFilename ("a".toList ++ ([1, 20].map (fun n => ':' :: decimal n)).flatten) true =
      .ok ("a".toList, 1, 0) ∧
    splitFilename ("a".toList ++ ([1, 2, 3].map (fun n => ':' :: decimal n)).flatten) true =
      .error (.atoi "1:2:3".toList) :=
  ⟨splitFilename_colon_numbers "a".toList 1 [20] (by decide) (by decide),
    splitFilename_colon_numbers "a".toList 1 [2, 3] (by decide) (by decide)⟩

/-! ## Lemmas: cleaning and joining rooted paths -/

theorem rootedPath_cons (g : GoString) (gs : List GoString) :
    rootedPath (g :: gs) = '/' :: List.intercalate ['/'] (g :: gs) := by
  unfold rootedPath
  induction gs generalizing g with
  | nil => simp [intercalate_single]
  | cons g2 rest ih =>
    rw [List.map_cons, List.flatten_cons, ih g2, intercalate_cons_cons]
    rfl

theorem rootedPath_append (a b : List GoString) :
    rootedPath (a ++ b) = rootedPath a ++ rootedPath b := by
  simp [rootedPath]

/-- Cleaning step by step: empty elements are dropped, plain ones are kept. -/
theorem foldl_cleanStep :
    ∀ (l : List GoString) (stack : List GoString),
      (∀ x ∈ l, x = [] ∨ plainSegment x) →
      l.foldl (path.cleanStep true) stack = (l.filter (fun x => !x.isEmpty)).reverse ++ stack := by
  intro l
  induction l with
  | nil => intro stack _; rfl
  | cons x l ih =>
    intro stack h
    rw [List.foldl_cons, ih _ (fun y hy => h y (by simp [hy]))]
    rcases h x (by simp) with rfl | hx
    · simp [path.cleanStep]
    · obtain ⟨hne, _, _, hdot, hdots⟩ := hx
      have hemp : x.isEmpty = false := by
        cases x with
        | nil => exact absurd rfl hne
        | cons c t => rfl
      simp [path.cleanStep, hne, hdot, hdots, hemp]

/-- `path.Clean` on a rooted path whose elements are empty or plain: the empty
elements go. -/
theorem Clean_rootedPath (g : GoString) (gs : List GoString)
    (h : ∀ x ∈ g :: gs, x = [] ∨ plainSegment x)
    (hne : (g :: gs).filter (fun x => !x.isEmpty) ≠ []) :
    path.Clean (rootedPath (g :: gs)) =
      rootedPath ((g :: gs).filter (fun x => !x.isEmpty)) := by
  have hslash : ∀ x ∈ [] :: g :: gs, '/' ∉ x := by
    intro x hx
    rcases List.mem_cons.1 hx with rfl | hx
    · simp
    · rcases h x hx with rfl | hp
      · simp
      · exact hp.2.1
  have hsplit : (rootedPath (g :: gs)).splitOn '/' = [] :: g :: gs := by
    have := List.splitOn_intercalate ([] :: g :: gs) '/' hslash (by simp)
    rw [intercalate_cons_cons, List.nil_append] at this
    rw [rootedPath_cons]
    exact this
  have hhead : (rootedPath (g :: gs)).head? = some '/' := by
    rw [rootedPath_cons]; rfl
  obtain ⟨f, fs, hf⟩ : ∃ f fs, (g :: gs).filter (fun x => !x.isEmpty) = f :: fs := by
    cases hfl : (g :: gs).filter (fun x => !x.isEmpty) with
    | nil => exact absurd hfl hne
    | cons f fs => exact ⟨f, fs, rfl⟩
  have hfold : ([] :: g :: gs).foldl (path.cleanStep true) [] = (f :: fs).reverse := by
    rw [foldl_cleanStep _ _ (fun x hx => by
      rcases List.mem_cons.1 hx with rfl | hx
      · exact Or.inl rfl
      · exact h x hx)]
    rw [List.append_nil, ← hf]
    simp
  unfold path.Clean
  simp only [hhead, hsplit, decide_True, hfold, List.reverse_reverse, if_true]
  rw [hf, rootedPath_cons]
  simp

theorem HasSuffix_slash (x : GoString) (h : ∀ c ∈ x.getLast?, c ≠ '/') :
    strings.HasSuffix x ['/'] = false := by
  cases hs : strings.HasSuffix x ['/'] with
  | false => rfl
  | true =>
    exfalso
    rw [strings.HasSuffix, List.isSuffixOf_iff_suffix] at hs
    obtain ⟨t, ht⟩ := hs
    exact h '/' (by rw [← ht, List.getLast?_concat]; rfl) rfl

theorem rootedPath_getLast (segs : List GoString) (hne : segs ≠ [])
    (h : ∀ x ∈ segs, plainSegment x) :
    ∀ c ∈ (rootedPath segs).getLast?, c ≠ '/' := by
  intro c hc
  obtain ⟨front, x, rfl⟩ : ∃ front x, segs = front ++ [x] := by
    rcases List.eq_nil_or_concat segs with h0 | ⟨front, x, h0⟩
    · exact absurd h0 hne
    · exact ⟨front, x, by simpa using h0⟩
  have hx := h x (by simp)
  rw [rootedPath_append] at hc
  have hlast : rootedPath [x] = '/' :: x := by simp [rootedPath]
  rw [hlast, List.getLast?_append_of_ne_nil _ (by simp)] at hc
  rw [List.getLast?_cons] at hc
  cases hl : x.getLast? with
  | none => exact absurd (List.getLast?_eq_none_iff.1 hl) hx.1
  | some d =>
    rw [hl] at hc
    have hcd : c = d := by
      have : some d = some c := hc
      exact (Option.some.inj this).symm
    rintro rfl
    rw [← hcd] at hl
    exact hx.2.1 (List.mem_of_getLast?_eq_some hl)

theorem rootedPath_no_percent (segs : List GoString) (h : ∀ x ∈ segs, plainSegment x) :
    '%' ∉ rootedPath segs := by
  induction segs with
  | nil => simp [rootedPath]
  | cons x l ih =>
    have e : rootedPath (x :: l) = ('/' :: x) ++ rootedPath l := by simp [rootedPath]
    rw [e]
    intro hm
    rcases List.mem_append.1 hm with hm | hm
    · rcases List.mem_cons.1 hm with h0 | h0
      · exact absurd h0 (by decide)
      · exact (h x (by simp)).2.2.1 h0
    · exact ih (fun y hy => h y (by simp [hy])) hm

theorem filter_plain (l : List GoString) (h : ∀ x ∈ l, plainSegment x) :
    l.filter (fun x => !x.isEmpty) = l := by
  apply List.filter_eq_self.2
  intro x hx
  have := (h x hx).1
  cases x with
  | nil => exact absurd rfl this
  | cons c t => rfl

/-- `JoinPath` on a URL whose path is rooted and plain, when the joined text
is a rooted path of plain and empty elements: the path becomes the rooted path of
the plain elements. -/
theorem JoinPath_plain (u : URL) (b : GoString) (bs elem L : List GoString)
    (hu : u.Path = rootedPath (b :: bs)) (hb : ∀ x ∈ b :: bs, plainSegment x)
    (hjoin : List.intercalate ['/'] (u.Path :: elem) = rootedPath (b :: (bs ++ L)))
    (hL : ∀ x ∈ L, x = [] ∨ plainSegment x)
    (hlast : strings.HasSuffix (((u.Path :: elem).getLast?).getD []) ['/'] = false) :
    u.JoinPath elem =
      { u with Path := rootedPath (b :: bs ++ L.filter (fun x => !x.isEmpty)) } := by
  have hrooted : strings.HasPrefix u.Path ['/'] = true := by
    rw [hu, rootedPath_cons]
    simp [strings.HasPrefix, List.isPrefixOf]
  have hpne : u.Path.isEmpty = false := by
    rw [hu, rootedPath_cons]; rfl
  have hall : ∀ x ∈ b :: (bs ++ L), x = [] ∨ plainSegment x := by
    intro x hx
    rcases List.mem_cons.1 hx with rfl | hx
    · exact Or.inr (hb _ (by simp))
    · rcases List.mem_append.1 hx with hx | hx
      · exact Or.inr (hb x (by simp [hx]))
      · exact hL x hx
  have hfilter : (b :: (bs ++ L)).filter (fun x => !x.isEmpty) =
      b :: bs ++ L.filter (fun x => !x.isEmpty) := by
    have := filter_plain (b :: bs) hb
    rw [← List.cons_append, List.filter_append, this]
  have hclean := Clean_rootedPath b (bs ++ L) hall (by rw [hfilter]; simp)
  rw [hfilter] at hclean
  have hjoin2 : path.Join (u.Path :: elem) =
      rootedPath (b :: bs ++ L.filter (fun x => !x.isEmpty)) := by
    unfold path.Join
    simp only [List.dropWhile, hpne, Bool.false_eq_true, if_false]
    rw [if_neg (by simp), hjoin, hclean]
  have hplain : ∀ x ∈ b :: bs ++ L.filter (fun x => !x.isEmpty), plainSegment x := by
    intro x hx
    rcases List.mem_append.1 hx with hx | hx
    · exact hb x hx
    · have hxL := List.mem_filter.1 hx
      rcases hL x hxL.1 with rfl | hp
      · simp at hxL
      · exact hp
  have hun := unescape_plain _ (rootedPath_no_percent _ hplain)
  unfold URL.JoinPath
  simp only [hrooted, if_true, hjoin2, hlast, Bool.false_eq_true, false_and, if_false, hun]

theorem ReplaceFirst_root (root rest : GoString) (hne : root ≠ []) :
    strings.ReplaceFirst (root ++ rest) root [] = rest := by
  have hcut := strings.Cut_at root rest hne [] (fun x y hxy hy =>
    absurd (List.append_eq_nil.1 hxy.symm).2 hy)
  rw [List.nil_append] at hcut
  simp [strings.ReplaceFirst, hcut]

theorem mode_plain (blame : Bool) :
    plainSegment (if blame then "blame".toList else "tree".toList) := by
  cases blame <;> decide

/-- The path of the URL that `getFileURL` composes, for a file under the root of
the work tree, when the elements of the base path, the revision and the
elements of the file path below the root are plain: the base path, the mode, the
revision and the file path without the root. -/
theorem getFileURL_path (env : Env) (g : git) (file absFile workTree rev : GoString)
    (blame : Bool) (base : URL) (b : GoString) (bs segs : List GoString)
    (habs : path.Abs env.getwd file = .ok absFile)
    (hwt : (g.worktree env (path.Dir absFile)).out = .ok workTree)
    (hrev : ((g.worktree env (path.Dir absFile)).git.upstreamRevision env workTree).out =
      .ok rev)
    (hbase : ((g.worktree env (path.Dir absFile)).git.baseURL env workTree).out = .ok base)
    (hunder : absFile = workTree ++ rootedPath segs) (hwne : workTree ≠ [])
    (hsegs : segs ≠ []) (hplain : ∀ x ∈ segs, plainSegment x) (hrevp : plainSegment rev)
    (hbasepath : base.Path = rootedPath (b :: bs)) (hbp : ∀ x ∈ b :: bs, plainSegment x) :
    ∃ u, (getFileURL env g file blame).out = .ok u ∧
      u.Path = base.Path ++ '/' :: (if blame then "blame".toList else "tree".toList) ++
        '/' :: rev ++ rootedPath segs := by
  have hmode := mode_plain blame
  obtain ⟨mode, hmdef⟩ : ∃ m : GoString, m = (if blame then "blame".toList else "tree".toList) :=
    ⟨_, rfl⟩
  rw [← hmdef] at hmode ⊢
  -- the URL of the revision
  have hL1 : ∀ x ∈ [mode, rev], x = [] ∨ plainSegment x := by
    intro x hx
    simp only [List.mem_cons, List.mem_singleton, List.not_mem_nil, or_false] at hx
    rcases hx with rfl | rfl
    · exact Or.inr hmode
    · exact Or.inr hrevp
  have hj1 : List.intercalate ['/'] (base.Path :: [mode, rev]) =
      rootedPath (b :: (bs ++ [mode, rev])) := by
    rw [hbasepath, ← List.cons_append, rootedPath_append]
    simp [List.intercalate, List.intersperse, rootedPath]
  have hlast1 : strings.HasSuffix (((base.Path :: [mode, rev]).getLast?).getD []) ['/'] =
      false := by
    apply HasSuffix_slash
    intro c hc
    have : c ∈ rev := List.mem_of_getLast?_eq_some (by simpa using hc)
    rintro rfl
    exact hrevp.2.1 this
  have h1 := JoinPath_plain base b bs [mode, rev] [mode, rev] hbasepath hbp hj1 hL1 hlast1
  rw [filter_plain [mode, rev] (by
    intro x hx
    rcases hL1 x hx with rfl | hp
    · simp only [List.mem_cons, List.mem_singleton, List.not_mem_nil, or_false] at hx
      rcases hx with h0 | h0
      · exact absurd h0.symm hmode.1
      · exact absurd h0.symm hrevp.1
    · exact hp)] at h1
  -- the URL of the file
  have hbp2 : ∀ x ∈ b :: (bs ++ [mode, rev]), plainSegment x := by
    intro x hx
    rcases List.mem_cons.1 hx with rfl | hx
    · exact hbp _ (by simp)
    · rcases List.mem_append.1 hx with hx | hx
      · exact hbp x (by simp [hx])
      · rcases hL1 x hx with rfl | hp
        · simp only [List.mem_cons, List.mem_singleton, List.not_mem_nil, or_false] at hx
          rcases hx with h0 | h0
          · exact absurd h0.symm hmode.1
          · exact absurd h0.symm hrevp.1
        · exact hp
  have hL2 : ∀ x ∈ [] :: segs, x = [] ∨ plainSegment x := by
    intro x hx
    rcases List.mem_cons.1 hx with rfl | hx
    · exact Or.inl rfl
    · exact Or.inr (hplain x hx)
  have hj2 : List.intercalate ['/'] (rootedPath (b :: (bs ++ [mode, rev])) :: [rootedPath segs]) =
      rootedPath (b :: ((bs ++ [mode, rev]) ++ [] :: segs)) := by
    rw [← List.cons_append, rootedPath_append]
    simp [List.intercalate, List.intersperse, rootedPath]
  have hlast2 : strings.HasSuffix
      (((rootedPath (b :: (bs ++ [mode, rev])) :: [rootedPath segs]).getLast?).getD []) ['/'] =
      false := by
    apply HasSuffix_slash
    intro c hc
    exact rootedPath_getLast segs hsegs hplain c (by simpa using hc)
  have h2 := JoinPath_plain { base with Path := rootedPath (b :: bs ++ [mode, rev]) } b
    (bs ++ [mode, rev]) [rootedPath segs] ([] :: segs) rfl hbp2 hj2 hL2 hlast2
  have hfil : ([] :: segs).filter (fun x => !x.isEmpty) = segs := by
    rw [List.filter_cons]
    simp only [List.isEmpty_nil, Bool.not_true, Bool.false_eq_true, if_false]
    exact filter_plain segs hplain
  rw [hfil] at h2
  -- the call
  have hrep : strings.ReplaceFirst absFile workTree [] = rootedPath segs := by
    rw [hunder]; exact ReplaceFirst_root _ _ hwne
  refine ⟨{ base with Path := rootedPath (b :: (bs ++ [mode, rev]) ++ segs) }, ?_, ?_⟩
  · unfold getFileURL
    simp only [habs, hwt, hrev, upstreamRevision_git, hbase, hrep, ← hmdef, h1, h2]
  · rw [hbasepath]
    simp [rootedPath]

/-- The sample world meets the conditions of `getFileURL_path`. -/
theorem getFileURL_path_sample :
    ∃ u, (getFileURL sampleEnv Git "cmd/main.go".toList true).out = .ok u ∧
      u.Path = "/coxley/link2code".toList ++ '/' :: "blame".toList ++
        '/' :: "0123456789".toList ++ rootedPath ["cmd".toList, "main.go".toList] :=
  getFileURL_path sampleEnv Git "cmd/main.go".toList "/home/user/link2code/cmd/main.go".toList
    "/home/user/link2code".toList "0123456789".toList true
    ⟨"https".toList, "github.com".toList, "/coxley/link2code".toList, []⟩
    "coxley".toList ["link2code".toList] ["cmd".toList, "main.go".toList]
    (by decide) (by decide) (by decide) (by decide) (by decide) (by decide) (by decide)
    (by decide) (by decide) (by decide) (by decide)

/-! ## The claim on the composed path -/

/-- C16: the code does not do what the claim says for a file whose name has a
`%`.  `JoinPath` reads its elements as encoded paths: for the file `100%.txt`
under the root of the work tree the escape is malformed, the error of `setPath`
is ignored and the URL keeps the path of the revision, without the file; for
`a%41b.txt` the escape is decoded and the path names `aAb.txt`. -/
theorem getFileURL_percent :
    path.Abs sampleEnv.getwd "100%.txt".toList = .ok "/home/user/link2code/100%.txt".toList ∧
    (Git.worktree sampleEnv (path.Dir "/home/user/link2code/100%.txt".toList)).out =
      .ok "/home/user/link2code".toList ∧
    (getFileURL sampleEnv Git "100%.txt".toList false).out =
      .ok ⟨"https".toList, "github.com".toList, "/coxley/link2code/tree/0123456789".toList, []⟩ ∧
    (getFileURL sampleEnv Git "a%41b.txt".toList false).out =
      .ok ⟨"https".toList, "github.com".toList,
        "/coxley/link2code/tree/0123456789/aAb.txt".toList, []⟩ :=
  ⟨by decide, by decide, by decide, by decide⟩

end Link2Code
